import Mathlib

/-!
A shallow embedding of the reconciliation and merge engine of
`beancount-gocardless-importer` (`src/main.rs`), together with proofs about
the claims of its specification.

The embedding covers the pure core of the `import` routine: the history
scan over the ledger (`imported ids`, `last_balance`, `last_transaction`),
the transaction normalizer `gocardless_transaction_to_beancount`, the
duplicate filter `is_duplicate`, the pending-amount bag, and the balance
reconciliation step.  Network fetches are modelled as a `Feed` capability
mapping an account id to the bank's responses, exactly the shape the Rust
code consumes (`retrieve_account_transactions` /
`retrieve_account_balances`).  Fallible Rust code (`anyhow::Result`,
`unwrap` panics) is modelled with `Except Err`.  `rust_decimal::Decimal`
values are modelled as rationals (`rust_decimal` equality and subtraction
are numeric, which `Rat` reproduces exactly); the 96-bit mantissa bound of
`Decimal` is outside the scope of the claims and is not modelled.
-/

/-- Calendar date, modelling `chrono::NaiveDate` as the plain
year/month/day triple.  `chrono`'s internal year bounds are outside the
range exercised by any claim and are not modelled. -/
structure Date where
  year : Int
  month : Nat
  day : Nat
deriving DecidableEq, Repr

/-- Chronological strict order on dates; for valid dates this is exactly
`chrono::NaiveDate`'s `Ord` (lexicographic on year, month, day). -/
def Date.lt (a b : Date) : Prop :=
  a.year < b.year ∨ (a.year = b.year ∧ (a.month < b.month ∨ (a.month = b.month ∧ a.day < b.day)))

/-- Chronological non-strict order on dates. -/
def Date.le (a b : Date) : Prop :=
  a.year < b.year ∨ (a.year = b.year ∧ (a.month < b.month ∨ (a.month = b.month ∧ a.day ≤ b.day)))

instance : DecidableRel Date.lt := fun a b => by unfold Date.lt; infer_instance

instance : DecidableRel Date.le := fun a b => by unfold Date.le; infer_instance

/-- Leap-year rule used by `chrono` (proleptic Gregorian calendar). -/
def isLeapYear (y : Int) : Bool :=
  y % 4 == 0 && (y % 100 != 0 || y % 400 == 0)

/-- Number of days of a month, as in the Gregorian calendar. -/
def daysInMonth (y : Int) : Nat → Nat
  | 2 => if isLeapYear y then 29 else 28
  | 4 => 30
  | 6 => 30
  | 9 => 30
  | 11 => 30
  | _ => 31

/-- Validity of a year/month/day triple as a calendar date. -/
def validDate (d : Date) : Bool :=
  decide (1 ≤ d.month ∧ d.month ≤ 12 ∧ 1 ≤ d.day ∧ d.day ≤ daysInMonth d.year d.month)

/-- The calendar day after `d`; models
`NaiveDate::checked_add_days(Days::new(1)).unwrap()` (which in `chrono`
fails only past the maximal representable year, outside the modelled
range). -/
def nextDay (d : Date) : Date :=
  if d.day < daysInMonth d.year d.month then ⟨d.year, d.month, d.day + 1⟩
  else if d.month < 12 then ⟨d.year, d.month + 1, 1⟩
  else ⟨d.year + 1, 1, 1⟩

/-- Numeric value of a list of decimal digit characters. -/
def digitsVal (cs : List Char) : Nat :=
  cs.foldl (fun a c => 10 * a + (c.toNat - 48)) 0

/-- Scan a run of at most `maxW` decimal digits at the head of `cs`,
returning the value and the unconsumed rest; fails when no digit leads.
Models `chrono`'s numeric-field scanner (at least one digit, greedy up to
the field width). -/
def scanNum (maxW : Nat) (cs : List Char) : Option (Nat × List Char) :=
  let digits := (cs.takeWhile Char.isDigit).take maxW
  if digits.isEmpty then none
  else some (digitsVal digits, cs.drop digits.length)

/-- Model of `chrono::NaiveDate::parse_and_remainder(s, "%Y-%m-%d")`:
a year (up to four digits), a literal dash, a month (up to two digits), a
dash, a day (up to two digits); the parsed triple must be a valid calendar
date, and whatever follows the day digits is returned as the remainder.
(`chrono`'s signed-year escape and its leading-whitespace tolerance before
numeric fields go beyond any input exercised here and are not modelled.) -/
def parseDateAndRemainder (s : String) : Option (Date × String) :=
  match scanNum 4 s.data with
  | none => none
  | some (y, r1) =>
    match r1 with
    | '-' :: r2 =>
      match scanNum 2 r2 with
      | none => none
      | some (m, r3) =>
        match r3 with
        | '-' :: r4 =>
          match scanNum 2 r4 with
          | none => none
          | some (dd, r5) =>
            let d : Date := ⟨(y : Int), m, dd⟩
            if validDate d then some (d, String.mk r5) else none
        | _ => none
    | _ => none

/-- Model of `rust_decimal`'s string parsing (`str::parse::<Decimal>` and
`Decimal::from_str_exact`): an optional sign, an integer digit run, an
optional fractional digit run after one dot, at least one digit overall,
nothing trailing.  The value is the exact rational the digits denote.
(`rust_decimal`'s underscore separators and its 28-digit precision limit
are outside the inputs exercised by the claims.) -/
def parseDecimal (s : String) : Option Rat :=
  let (sign, cs) : Int × List Char :=
    match s.data with
    | '-' :: r => (-1, r)
    | '+' :: r => (1, r)
    | cs => (1, cs)
  let intPart := cs.takeWhile Char.isDigit
  let rest := cs.dropWhile Char.isDigit
  match rest with
  | [] =>
    if intPart.isEmpty then none
    else some (mkRat (sign * digitsVal intPart) 1)
  | '.' :: fr =>
    let frac := fr.takeWhile Char.isDigit
    if ¬ (fr.dropWhile Char.isDigit).isEmpty then none
    else if intPart.isEmpty ∧ frac.isEmpty then none
    else some (mkRat (sign * (digitsVal intPart * 10 ^ frac.length + digitsVal frac))
                (10 ^ frac.length))
  | _ => none

/-- `beanru::types::Amount`: a decimal value together with a currency
code.  Equality is exact on both components, as in the source
(`Amount: PartialEq` compares value and currency). -/
structure Amount where
  value : Rat
  currency : String
deriving DecidableEq, Repr

/-- `beanru::bag::Bag<Decimal>`: a mapping from currency code to
accumulated value, kept here as an association list in insertion order. -/
abbrev Bag := List (String × Rat)

/-- `bag += amount`: add the value to the currency's entry, creating the
entry when absent. -/
def bagAdd (b : Bag) (a : Amount) : Bag :=
  match b with
  | [] => [(a.currency, a.value)]
  | (c, v) :: rest =>
    if c = a.currency then (c, v + a.value) :: rest else (c, v) :: bagAdd rest a

/-- `bag.commodities().get(&currency)`: the accumulated value for a
currency, `none` when the currency was never added. -/
def bagGet (b : Bag) (c : String) : Option Rat :=
  match b with
  | [] => none
  | (c', v) :: rest => if c' = c then some v else bagGet rest c

/-- `beanru::types::MetadataValue`; the importer only constructs and
matches the `String` variant. -/
inductive MetaValue where
  | string (s : String)
  | otherValue
deriving DecidableEq, Repr

/-- One leg of a transaction (`beanru::types::Posting`).  The importer
constructs postings with no flag, no cost and no price; those fields are
kept so the construction site matches the source. -/
structure Posting where
  flag : Option String
  account : String
  amount : Option Amount
  cost : Option Amount
  price : Option Amount
  metadata : List (String × MetaValue)
  autocomputed : Bool
deriving DecidableEq, Repr

/-- `beanru::types::Transaction`.  Links are a set of strings in the
source (`HashSet<String>`); they are kept as a list, with all uses
membership-based. -/
structure Transaction where
  flag : Option String
  payee : Option String
  narration : Option String
  tags : List String
  links : List String
  postings : List Posting
  balanced : Bool
deriving DecidableEq, Repr

/-- `beanru::types::Balance`: an assertion that the account holds exactly
`amount` at the directive's date. -/
structure Balance where
  account : String
  amount : Amount
deriving DecidableEq, Repr

/-- `beanru::types::DirectiveContent`; the importer constructs
`Transaction` and `Balance`, reads `Open`, and ignores every other
variant (collapsed here into `otherContent`). -/
inductive DirectiveContent where
  | transaction (t : Transaction)
  | balance (b : Balance)
  | openAccount (account : String)
  | otherContent
deriving DecidableEq, Repr

/-- `DirectiveContent::transaction_opt`. -/
def DirectiveContent.transactionOpt : DirectiveContent → Option Transaction
  | .transaction t => some t
  | _ => none

/-- `beanru::types::Directive`: a dated entry with content and metadata. -/
structure Directive where
  date : Date
  content : DirectiveContent
  metadata : List (String × MetaValue)
deriving DecidableEq, Repr

/-- One ledger file: an ordered sequence of directives. -/
structure LedgerFile where
  directives : List Directive
deriving DecidableEq, Repr

/-- The in-memory ledger: its files, in a fixed traversal order (the file
names play no role in the core and are dropped). -/
structure Ledger where
  files : List LedgerFile
deriving DecidableEq, Repr

/-- `gocardless` transaction amount: a decimal rendered as text plus a
currency code.  This field is mandatory in the schema. -/
structure TxAmount where
  amount : String
  currency : String
deriving DecidableEq, Repr

/-- Counterparty account reference (only the IBAN is read). -/
structure PartyAccount where
  iban : Option String
deriving DecidableEq, Repr

/-- Currency-exchange block of a `gocardless` transaction. -/
structure CurrencyExchange where
  source_currency : Option String
  exchange_rate : Option String
  target_currency : Option String
deriving DecidableEq, Repr

/-- `gocardless::models::TransactionSchema`, restricted to the fields the
importer reads. -/
structure TransactionSchema where
  booking_date : Option String
  booking_date_time : Option String
  value_date_time : Option String
  debtor_name : Option String
  debtor_account : Option PartyAccount
  creditor_name : Option String
  creditor_account : Option PartyAccount
  currency_exchange : Option CurrencyExchange
  proprietary_bank_transaction_code : Option String
  remittance_information_unstructured : Option String
  remittance_information_unstructured_array : Option (List String)
  internal_transaction_id : Option String
  transaction_amount : TxAmount
deriving DecidableEq, Repr

/-- One entry of the bank's balance list: an amount and an optional
reference date (as text). -/
structure BalanceSchema where
  balance_amount : TxAmount
  reference_date : Option String
deriving DecidableEq, Repr

/-- Body of `retrieve_account_transactions`: booked transactions plus an
optional list of pending ones. -/
structure TransactionList where
  booked : List TransactionSchema
  pending : Option (List TransactionSchema)
deriving DecidableEq, Repr

/-- Response of `retrieve_account_transactions`. -/
structure TransactionsResponse where
  transactions : TransactionList
deriving DecidableEq, Repr

/-- Response of `retrieve_account_balances`. -/
structure BalancesResponse where
  balances : Option (List BalanceSchema)
deriving DecidableEq, Repr

/-- The bank capability consumed by the importer: per account id, the
transaction feed and the balance feed.  One fixed `Feed` models one run's
network responses. -/
structure Feed where
  transactions : String → TransactionsResponse
  balances : String → BalancesResponse

/-- Failure modes of the reconciliation pass, following the spec's
taxonomy.  `missingField` models the `anyhow::Context` error on an absent
field; `parseFailure` models `chrono`/`rust_decimal` parse errors
(including the `unwrap` panic on a malformed balance reference date);
`noReferenceDate` models the `unwrap` panic when a balance needs a date
but the account has neither a reference date nor any transaction. -/
inductive Err where
  | missingField (what : String)
  | parseFailure (what : String)
  | noReferenceDate
deriving DecidableEq, Repr

/-- `narration` (`src/main.rs:124`): the narration is the `", "`-join of
the structured remittance entries when that list is present and
non-empty, else the unstructured remittance text, else the creditor
name. -/
def narration (t : TransactionSchema) : Option String :=
  match t.remittance_information_unstructured_array with
  | some inf =>
    if ¬ inf.isEmpty then some (String.intercalate ", " inf)
    else
      match t.remittance_information_unstructured with
      | some i => some i
      | none => t.creditor_name
  | none =>
    match t.remittance_information_unstructured with
    | some i => some i
    | none => t.creditor_name

/-- Metadata entry for an optional source field: present fields are
stored, absent ones omitted. -/
def optMeta (key : String) (v : Option String) : List (String × MetaValue) :=
  match v with
  | some s => [(key, .string s)]
  | none => []

/-- The metadata entries collected by the normalizer
(`src/main.rs:144-189`), in source insertion order (the Rust `HashMap`
has no observable order and every key is inserted at most once). -/
def g2bMetadata (t : TransactionSchema) : List (String × MetaValue) :=
  optMeta "booking_date_time" t.booking_date_time ++
  optMeta "value_date_time" t.value_date_time ++
  optMeta "from_name" t.debtor_name ++
  optMeta "from_iban" (t.debtor_account.bind (·.iban)) ++
  optMeta "to_name" t.creditor_name ++
  optMeta "to_iban" (t.creditor_account.bind (·.iban)) ++
  (match t.currency_exchange with
   | some ce =>
     optMeta "source_currency" ce.source_currency ++
     optMeta "exchange_rate" ce.exchange_rate ++
     optMeta "target_currency" ce.target_currency
   | none => []) ++
  optMeta "transaction_code" t.proprietary_bank_transaction_code

/-- The link set of a normalized transaction (`src/main.rs:191-194`):
`id-<internal transaction id>` when the record carries one, else
nothing. -/
def g2bLinks (t : TransactionSchema) : List String :=
  match t.internal_transaction_id with
  | some id => ["id-" ++ id]
  | none => []

/-- The `Transaction` content built by the normalizer
(`src/main.rs:196-215`): single posting on the target account with the
parsed amount, not balanced. -/
def g2bTransaction (t : TransactionSchema) (account : String) (value : Rat) : Transaction :=
  { flag := none
    payee := none
    narration := narration t
    tags := []
    links := g2bLinks t
    postings := [{ flag := none
                   account := account
                   amount := some { value := value, currency := t.transaction_amount.currency }
                   cost := none
                   price := none
                   metadata := []
                   autocomputed := false }]
    balanced := false }

/-- `gocardless_transaction_to_beancount` (`src/main.rs:136`): normalize
one bank transaction record into a ledger `Transaction` directive for the
given account.  The booking date must be present and must parse
(leniently, `parse_and_remainder`); the amount text must parse as a
decimal. -/
def gocardless_transaction_to_beancount (t : TransactionSchema) (account : String) :
    Except Err Directive :=
  match t.booking_date with
  | none => throw (Err.missingField "booking date is missing")
  | some bd =>
    match parseDateAndRemainder bd with
    | none => throw (Err.parseFailure "booking date")
    | some (date, _) =>
      match parseDecimal t.transaction_amount.amount with
      | none => throw (Err.parseFailure "transaction amount")
      | some value =>
        pure { date := date, content := .transaction (g2bTransaction t account value),
               metadata := g2bMetadata t }

/-- `is_duplicate` (`src/main.rs:224`): a directive is a duplicate when
it is a transaction and one of its links is already among the imported
ids. -/
def is_duplicate (d : Directive) (ids : List String) : Bool :=
  match d.content.transactionOpt with
  | none => false
  | some t => t.links.any (fun link => decide (link ∈ ids))

/-- `link.starts_with("id-")`. -/
def hasIdTag (link : String) : Bool :=
  decide (link.data.take 3 = "id-".data)

/-- `HashSet::insert`, on the list model: add the element unless already
present. -/
def insertId (ids : List String) (link : String) : List String :=
  if link ∈ ids then ids else link :: ids

/-- The three indices built by the history scan (`src/main.rs:237`). -/
structure ScanState where
  ids : List String
  last_balance : String → Option (Date × Amount)
  last_transaction : String → Option Date

/-- `last_transaction.entry(acc).and_modify(max-by-date).or_insert(d)`:
record `d` as the account's last transaction date unless a strictly later
one is present. -/
def updateLastDate (m : String → Option Date) (acc : String) (d : Date) :
    String → Option Date :=
  fun a =>
    if a = acc then
      some (match m acc with
            | none => d
            | some t => if Date.lt t d then d else t)
    else m a

/-- `last_balance.entry(acc).and_modify(..).or_insert(..)`
(`src/main.rs:258`): replace the recorded pair only when the new
directive's date is strictly later. -/
def updateLastBalance (m : String → Option (Date × Amount)) (acc : String)
    (d : Date) (amt : Amount) : String → Option (Date × Amount) :=
  fun a =>
    if a = acc then
      some (match m acc with
            | none => (d, amt)
            | some e => if Date.lt e.1 d then (d, amt) else e)
    else m a

/-- One step of the history scan (`src/main.rs:242`): collect `id-`
links of transactions, last transaction date per posting account, and the
last balance per account. -/
def scanDirective (st : ScanState) (d : Directive) : ScanState :=
  match d.content with
  | .transaction t =>
    { st with
      ids := t.links.foldl (fun ids l => if hasIdTag l then insertId ids l else ids) st.ids
      last_transaction :=
        t.postings.foldl (fun m p => updateLastDate m p.account d.date) st.last_transaction }
  | .balance b =>
    { st with last_balance := updateLastBalance st.last_balance b.account d.date b.amount }
  | _ => st

/-- Scan of one file's directives. -/
def scanFile (st : ScanState) (f : LedgerFile) : ScanState :=
  f.directives.foldl scanDirective st

/-- The whole history scan over every file (`src/main.rs:241`). -/
def scanLedger (L : Ledger) : ScanState :=
  L.files.foldl scanFile { ids := [], last_balance := fun _ => none, last_transaction := fun _ => none }

/-- Import configuration read from an `Open` directive
(`src/main.rs:274`): the pair `(account_id, account)` when the metadata
carries `importer = "gocardless"` and a string `account_id`. -/
def openConfig (d : Directive) : Option (String × String) :=
  match d.content with
  | .openAccount acct =>
    match d.metadata.lookup "importer" with
    | some (.string imp) =>
      if imp = "gocardless" then
        match d.metadata.lookup "account_id" with
        | some (.string account_id) => some (account_id, acct)
        | _ => none
      else none
    | _ => none
  | _ => none

/-- The configured accounts of one file, in directive order. -/
def toImport (f : LedgerFile) : List (String × String) :=
  f.directives.filterMap openConfig

/-- The booked-transactions loop (`src/main.rs:300`): normalize each
booked record in feed order and keep the ones that are not duplicates. -/
def normalizeBooked (ids : List String) (account : String) :
    List TransactionSchema → Except Err (List Directive)
  | [] => pure []
  | t :: rest => do
    let d ← gocardless_transaction_to_beancount t account
    let tail ← normalizeBooked ids account rest
    pure (if is_duplicate d ids then tail else d :: tail)

/-- The pending-transactions loop (`src/main.rs:306`): parse each pending
amount and accumulate it into the account's entry of the pending bag
(`entry(account).or_default() += amount`). -/
def addPendings (m : String → Option Bag) (account : String) :
    List TransactionSchema → Except Err (String → Option Bag)
  | [] => pure m
  | t :: rest =>
    match parseDecimal t.transaction_amount.amount with
    | none => throw (Err.parseFailure "pending transaction amount")
    | some v =>
      addPendings
        (fun a => if a = account then
            some (bagAdd ((m account).getD []) { value := v, currency := t.transaction_amount.currency })
          else m a)
        account rest

/-- Ordering used by `new_directives.sort_by_key(|d| d.date)`:
comparison of the date keys. -/
def byDate (a b : Directive) : Prop := Date.le a.date b.date

instance : DecidableRel byDate := fun a b => by unfold byDate; infer_instance

/-- The new directives appended for one account
(`src/main.rs:299-314`): normalize and filter the booked feed, reverse
it, then sort it stably by date.  Rust's `sort_by_key` is a stable sort;
its output — sorted by the key with ties in input order — is exactly
`List.insertionSort`'s. -/
def txnApp (ids : List String) (feed : Feed) (cfg : String × String) :
    Except Err (List Directive) := do
  let res := feed.transactions cfg.1
  let raw ← normalizeBooked ids cfg.2 res.transactions.booked
  pure ((raw.reverse).insertionSort byDate)

/-- State threaded through the per-account transaction loop of one file:
the file's directives so far, the mutable `last_transaction` index, and
the file's pending bag. -/
structure TxnState where
  directives : List Directive
  last_transaction : String → Option Date
  pending_bag : String → Option Bag

/-- One iteration of the per-account transaction loop
(`src/main.rs:289-325`): append the account's new directives, fold the
pending amounts into the bag, and push the latest new date into
`last_transaction`. -/
def txnStep (ids : List String) (feed : Feed) (st : TxnState) (cfg : String × String) :
    Except Err TxnState := do
  let res := feed.transactions cfg.1
  let new2 ← txnApp ids feed cfg
  let bag ← addPendings st.pending_bag cfg.2 (res.transactions.pending.getD [])
  let lt := match new2.getLast? with
    | some d => updateLastDate st.last_transaction cfg.2 d.date
    | none => st.last_transaction
  pure { directives := st.directives ++ new2, last_transaction := lt, pending_bag := bag }

/-- The per-account transaction loop of one file. -/
def txnPhase (ids : List String) (feed : Feed) :
    TxnState → List (String × String) → Except Err TxnState
  | st, [] => pure st
  | st, cfg :: rest => do
    let st' ← txnStep ids feed st cfg
    txnPhase ids feed st' rest

/-- Netting of the pending bag against the reported amount
(`src/main.rs:341-345`): subtract the account's accumulated pending
value for the reported currency, when one is tracked. -/
def adjustedAmount (bag : String → Option Bag) (account : String) (reported : Amount) : Amount :=
  match bag account with
  | some bg =>
    match bagGet bg reported.currency with
    | some a => { reported with value := reported.value - a }
    | none => reported
  | none => reported

/-- The balance directives (none or one) appended for one account by the
balance loop body (`src/main.rs:327-373`): take the first balance entry
if any, parse its amount, net the account's pending bag value for that
currency, skip when the last known assertion equals the adjusted amount,
otherwise date the assertion (reference date if present, else the day
after the account's last transaction) and emit it. -/
def balApp (lb : String → Option (Date × Amount)) (lt : String → Option Date)
    (bag : String → Option Bag) (feed : Feed) (cfg : String × String) :
    Except Err (List Directive) :=
  match (feed.balances cfg.1).balances with
  | none => pure []
  | some bs =>
    match bs.head? with
    | none => pure []
    | some b =>
      match parseDecimal b.balance_amount.amount with
      | none => throw (Err.parseFailure "balance amount")
      | some v =>
        let reported : Amount := { value := v, currency := b.balance_amount.currency }
        let amount : Amount := adjustedAmount bag cfg.2 reported
        let skip : Bool :=
          match lb cfg.2 with
          | some (_, prev) => decide (prev = amount)
          | none => false
        if skip then pure []
        else
          match b.reference_date with
          | some rd =>
            match parseDateAndRemainder rd with
            | none => throw (Err.parseFailure "reference date")
            | some (date, _) =>
              pure [{ date := date, content := .balance { account := cfg.2, amount := amount },
                      metadata := [] }]
          | none =>
            match lt cfg.2 with
            | none => throw Err.noReferenceDate
            | some d =>
              pure [{ date := nextDay d, content := .balance { account := cfg.2, amount := amount },
                      metadata := [] }]

/-- The per-account balance loop of one file: append each account's
emitted balance directives to the file. -/
def balPhase (lb : String → Option (Date × Amount)) (lt : String → Option Date)
    (bag : String → Option Bag) (feed : Feed) :
    List Directive → List (String × String) → Except Err (List Directive)
  | dirs, [] => pure dirs
  | dirs, cfg :: rest => do
    let app ← balApp lb lt bag feed cfg
    balPhase lb lt bag feed (dirs ++ app) rest

/-- Processing of one ledger file (`src/main.rs:270-374`): read the
configured accounts, run the transaction loop (with a fresh pending bag),
then the balance loop; returns the new file and the updated
`last_transaction` index, which carries over to later files. -/
def processFile (ids : List String) (lb : String → Option (Date × Amount))
    (lt : String → Option Date) (feed : Feed) (f : LedgerFile) :
    Except Err (LedgerFile × (String → Option Date)) := do
  let cfgs := toImport f
  let st ← txnPhase ids feed { directives := f.directives, last_transaction := lt,
                               pending_bag := fun _ => none } cfgs
  let dirs ← balPhase lb st.last_transaction st.pending_bag feed st.directives cfgs
  pure (⟨dirs⟩, st.last_transaction)

/-- Processing of all files in order, threading `last_transaction`. -/
def processFiles (ids : List String) (lb : String → Option (Date × Amount)) (feed : Feed) :
    (String → Option Date) → List LedgerFile → Except Err (List LedgerFile)
  | _, [] => pure []
  | lt, f :: fs => do
    let r ← processFile ids lb lt feed f
    let fs' ← processFiles ids lb feed r.2 fs
    pure (r.1 :: fs')

/-- The whole import pass (`import`, `src/main.rs:234`): run the history
scan, then process every file against the feed. -/
def runImport (L : Ledger) (feed : Feed) : Except Err Ledger := do
  let st := scanLedger L
  let files ← processFiles st.ids st.last_balance feed st.last_transaction L.files
  pure ⟨files⟩

/-! ### Basic reduction lemmas for the `Except` monad -/

@[simp]
theorem exceptBindOk {α β : Type} (a : α) (k : α → Except Err β) :
    (Except.ok a : Except Err α) >>= k = k a := rfl

@[simp]
theorem exceptBindError {α β : Type} (e : Err) (k : α → Except Err β) :
    (Except.error e : Except Err α) >>= k = Except.error e := rfl

@[simp]
theorem exceptPureEq {α : Type} (a : α) : (pure a : Except Err α) = Except.ok a := rfl

@[simp]
theorem exceptThrowEq {α : Type} (e : Err) : (throw e : Except Err α) = Except.error e := rfl

/-! ### Order facts about dates -/

theorem Date.le_refl (a : Date) : Date.le a a := by unfold Date.le; omega

theorem Date.le_trans {a b c : Date} (h1 : Date.le a b) (h2 : Date.le b c) : Date.le a c := by
  unfold Date.le at h1 h2 ⊢; omega

theorem Date.le_total (a b : Date) : Date.le a b ∨ Date.le b a := by
  unfold Date.le; omega

theorem Date.lt_trans {a b c : Date} (h1 : Date.lt a b) (h2 : Date.lt b c) : Date.lt a c := by
  unfold Date.lt at h1 h2 ⊢; omega

theorem Date.le_of_lt {a b : Date} (h : Date.lt a b) : Date.le a b := by
  unfold Date.lt at h; unfold Date.le; omega

theorem Date.not_lt_iff_le {a b : Date} : ¬ Date.lt a b ↔ Date.le b a := by
  unfold Date.lt Date.le; omega

theorem Date.not_le_iff_lt {a b : Date} : ¬ Date.le a b ↔ Date.lt b a := by
  unfold Date.lt Date.le; omega

theorem Date.lt_of_le_of_lt {a b c : Date} (h1 : Date.le a b) (h2 : Date.lt b c) : Date.lt a c := by
  unfold Date.le at h1; unfold Date.lt at h2 ⊢; omega

theorem Date.eq_of_le_of_le {a b : Date} (h1 : Date.le a b) (h2 : Date.le b a) : a = b := by
  obtain ⟨ay, am, ad⟩ := a
  obtain ⟨cy, cm, cd⟩ := b
  unfold Date.le at h1 h2
  dsimp only at h1 h2
  simp only [Date.mk.injEq]
  omega

instance : IsTotal Directive byDate := ⟨fun a b => Date.le_total a.date b.date⟩

instance : IsTrans Directive byDate := ⟨fun _ _ _ h1 h2 => Date.le_trans h1 h2⟩

/-! ### Membership in the imported-ids index -/

theorem mem_insertId {ids : List String} {l x : String} :
    x ∈ insertId ids l ↔ x = l ∨ x ∈ ids := by
  unfold insertId
  split
  · constructor
    · exact fun h => Or.inr h
    · rintro (rfl | h) <;> assumption
  · simp [List.mem_cons]

theorem mem_linksFold {links : List String} :
    ∀ {ids : List String} {x : String},
      x ∈ links.foldl (fun ids l => if hasIdTag l then insertId ids l else ids) ids ↔
        x ∈ ids ∨ (x ∈ links ∧ hasIdTag x = true) := by
  induction links with
  | nil => simp
  | cons l rest ih =>
    intro ids x
    rw [List.foldl_cons]
    by_cases hl : hasIdTag l
    · rw [if_pos hl, ih, mem_insertId]
      constructor
      · rintro ((rfl | h) | ⟨hm, ht⟩)
        · exact Or.inr ⟨List.mem_cons_self _ _, hl⟩
        · exact Or.inl h
        · exact Or.inr ⟨List.mem_cons_of_mem _ hm, ht⟩
      · rintro (h | ⟨hm, ht⟩)
        · exact Or.inl (Or.inr h)
        · rcases List.mem_cons.mp hm with rfl | hm'
          · exact Or.inl (Or.inl rfl)
          · exact Or.inr ⟨hm', ht⟩
    · rw [if_neg hl, ih]
      constructor
      · rintro (h | ⟨hm, ht⟩)
        · exact Or.inl h
        · exact Or.inr ⟨List.mem_cons_of_mem _ hm, ht⟩
      · rintro (h | ⟨hm, ht⟩)
        · exact Or.inl h
        · rcases List.mem_cons.mp hm with rfl | hm'
          · exact absurd ht hl
          · exact Or.inr ⟨hm', ht⟩

theorem scanDirective_ids_mem {st : ScanState} {d : Directive} {x : String} :
    x ∈ (scanDirective st d).ids ↔
      x ∈ st.ids ∨ ∃ t, d.content = .transaction t ∧ x ∈ t.links ∧ hasIdTag x = true := by
  unfold scanDirective
  cases hc : d.content with
  | transaction t =>
    simp only [mem_linksFold]
    constructor
    · rintro (h | ⟨hm, ht⟩)
      · exact Or.inl h
      · exact Or.inr ⟨t, rfl, hm, ht⟩
    · rintro (h | ⟨t', ht', hm, htag⟩)
      · exact Or.inl h
      · cases ht'; exact Or.inr ⟨hm, htag⟩
  | balance b => simp
  | openAccount a => simp
  | otherContent => simp

theorem scanList_ids_mem {l : List Directive} :
    ∀ {st : ScanState} {x : String},
      x ∈ (l.foldl scanDirective st).ids ↔
        x ∈ st.ids ∨ ∃ d ∈ l, ∃ t, d.content = .transaction t ∧ x ∈ t.links ∧ hasIdTag x = true := by
  induction l with
  | nil => simp
  | cons d rest ih =>
    intro st x
    rw [List.foldl_cons, ih, scanDirective_ids_mem]
    simp only [List.mem_cons]
    constructor
    · rintro ((h | ⟨t, ht, hm, htag⟩) | ⟨d', hd', w⟩)
      · exact Or.inl h
      · exact Or.inr ⟨d, Or.inl rfl, t, ht, hm, htag⟩
      · exact Or.inr ⟨d', Or.inr hd', w⟩
    · rintro (h | ⟨d', rfl | hd'', w⟩)
      · exact Or.inl (Or.inl h)
      · exact Or.inl (Or.inr w)
      · exact Or.inr ⟨d', hd'', w⟩

theorem scanFiles_ids_mem {fs : List LedgerFile} :
    ∀ {st : ScanState} {x : String},
      x ∈ (fs.foldl scanFile st).ids ↔
        x ∈ st.ids ∨ ∃ f ∈ fs, ∃ d ∈ f.directives, ∃ t,
          d.content = .transaction t ∧ x ∈ t.links ∧ hasIdTag x = true := by
  induction fs with
  | nil => simp
  | cons f fs ih =>
    intro st x
    rw [List.foldl_cons, ih,
        show (scanFile st f) = f.directives.foldl scanDirective st from rfl,
        scanList_ids_mem]
    simp only [List.mem_cons]
    constructor
    · rintro ((h | ⟨d, hd, w⟩) | ⟨f', hf', w⟩)
      · exact Or.inl h
      · exact Or.inr ⟨f, Or.inl rfl, d, hd, w⟩
      · exact Or.inr ⟨f', Or.inr hf', w⟩
    · rintro (h | ⟨f', rfl | hf'', w⟩)
      · exact Or.inl (Or.inl h)
      · exact Or.inl (Or.inr w)
      · exact Or.inr ⟨f', hf'', w⟩

theorem scanLedger_ids_mem {L : Ledger} {x : String} :
    x ∈ (scanLedger L).ids ↔
      ∃ f ∈ L.files, ∃ d ∈ f.directives, ∃ t,
        d.content = .transaction t ∧ x ∈ t.links ∧ hasIdTag x = true := by
  unfold scanLedger
  rw [scanFiles_ids_mem]
  simp

/-! ### The `last_balance` index as a fold over the balance entries -/

/-- The `(date, amount)` pairs of the `Balance` directives of a directive
list for one account, in scan order. -/
def balancesOf (l : List Directive) (acc : String) : List (Date × Amount) :=
  l.filterMap (fun d =>
    match d.content with
    | .balance b => if b.account = acc then some (d.date, b.amount) else none
    | _ => none)

/-- One update of the `last_balance` entry: keep the incumbent unless the
new date is strictly later. -/
def pfmStep (e : Option (Date × Amount)) (x : Date × Amount) : Option (Date × Amount) :=
  match e with
  | none => some x
  | some e0 => if Date.lt e0.1 x.1 then some x else some e0

/-- The value the scan leaves in `last_balance` for one account, as a
function of that account's balance entries in scan order. -/
def pickFM (xs : List (Date × Amount)) : Option (Date × Amount) :=
  xs.foldl pfmStep none

@[simp]
theorem balancesOf_nil {acc : String} : balancesOf [] acc = [] := rfl

theorem balancesOf_append {l l' : List Directive} {acc : String} :
    balancesOf (l ++ l') acc = balancesOf l acc ++ balancesOf l' acc :=
  List.filterMap_append _ _ _

theorem scanList_last_balance {l : List Directive} :
    ∀ {st : ScanState} {a : String},
      (l.foldl scanDirective st).last_balance a =
        (balancesOf l a).foldl pfmStep (st.last_balance a) := by
  induction l with
  | nil => intro st a; rfl
  | cons d rest ih =>
    intro st a
    rw [List.foldl_cons, ih]
    cases hc : d.content with
    | transaction t =>
      have h1 : (scanDirective st d).last_balance = st.last_balance := by
        unfold scanDirective; rw [hc]
      have h2 : balancesOf (d :: rest) a = balancesOf rest a := by
        unfold balancesOf
        rw [List.filterMap_cons]
        simp only [hc]
      rw [h1, h2]
    | balance b =>
      have h1 : (scanDirective st d).last_balance =
          updateLastBalance st.last_balance b.account d.date b.amount := by
        unfold scanDirective; rw [hc]
      by_cases hb : b.account = a
      · have h2 : balancesOf (d :: rest) a = (d.date, b.amount) :: balancesOf rest a := by
          unfold balancesOf
          rw [List.filterMap_cons]
          simp only [hc]
          rw [if_pos hb]
        have h3 : updateLastBalance st.last_balance b.account d.date b.amount a =
            pfmStep (st.last_balance a) (d.date, b.amount) := by
          subst hb
          unfold updateLastBalance pfmStep
          rw [if_pos rfl]
          cases st.last_balance b.account with
          | none => rfl
          | some e =>
            dsimp only
            exact apply_ite some _ _ _
        rw [h1, h2, List.foldl_cons, h3]
      · have h2 : balancesOf (d :: rest) a = balancesOf rest a := by
          unfold balancesOf
          rw [List.filterMap_cons]
          simp only [hc]
          rw [if_neg hb]
        have h3 : updateLastBalance st.last_balance b.account d.date b.amount a =
            st.last_balance a := by
          unfold updateLastBalance
          rw [if_neg (fun h => hb h.symm)]
        rw [h1, h2, h3]
    | openAccount acct =>
      have h1 : (scanDirective st d).last_balance = st.last_balance := by
        unfold scanDirective; rw [hc]
      have h2 : balancesOf (d :: rest) a = balancesOf rest a := by
        unfold balancesOf
        rw [List.filterMap_cons]
        simp only [hc]
      rw [h1, h2]
    | otherContent =>
      have h1 : (scanDirective st d).last_balance = st.last_balance := by
        unfold scanDirective; rw [hc]
      have h2 : balancesOf (d :: rest) a = balancesOf rest a := by
        unfold balancesOf
        rw [List.filterMap_cons]
        simp only [hc]
      rw [h1, h2]

/-- The balance entries of a whole ledger for one account, files in
order. -/
def ledgerBalances (L : Ledger) (a : String) : List (Date × Amount) :=
  (L.files.map (fun f => balancesOf f.directives a)).flatten

theorem scanFiles_last_balance {fs : List LedgerFile} :
    ∀ {st : ScanState} {a : String},
      (fs.foldl scanFile st).last_balance a =
        ((fs.map (fun f => balancesOf f.directives a)).flatten).foldl pfmStep
          (st.last_balance a) := by
  induction fs with
  | nil => intro st a; rfl
  | cons f fs ih =>
    intro st a
    rw [List.foldl_cons, ih, List.map_cons, List.flatten_cons, List.foldl_append,
        show (scanFile st f) = f.directives.foldl scanDirective st from rfl,
        scanList_last_balance]

theorem scanLedger_last_balance {L : Ledger} {a : String} :
    (scanLedger L).last_balance a = pickFM (ledgerBalances L a) := by
  unfold scanLedger pickFM ledgerBalances
  rw [scanFiles_last_balance]

/-! ### Characterization of the first-latest choice -/

theorem pfm_foldl_some {xs : List (Date × Amount)} :
    ∀ {e : Date × Amount}, ∃ y, xs.foldl pfmStep (some e) = some y := by
  induction xs with
  | nil => intro e; exact ⟨e, rfl⟩
  | cons x rest ih =>
    intro e
    rw [List.foldl_cons]
    unfold pfmStep
    dsimp only
    split
    · exact ih
    · exact ih

theorem pfm_foldl_char {xs : List (Date × Amount)} :
    ∀ {e y : Date × Amount},
      xs.foldl pfmStep (some e) = some y ↔
        ((y = e ∧ ∀ p ∈ xs, Date.le p.1 e.1) ∨
         ∃ pre post, xs = pre ++ y :: post ∧ Date.lt e.1 y.1 ∧
           (∀ p ∈ pre, Date.lt p.1 y.1) ∧ (∀ p ∈ post, Date.le p.1 y.1)) := by
  induction xs with
  | nil =>
    intro e y
    simp only [List.foldl_nil]
    constructor
    · intro h
      injection h with h
      refine Or.inl ⟨h.symm, ?_⟩
      intro p hp
      exact absurd hp (List.not_mem_nil p)
    · rintro (⟨rfl, _⟩ | ⟨pre, post, habs, _⟩)
      · rfl
      · exact absurd habs (by simp)
  | cons x rest ih =>
    intro e y
    rw [List.foldl_cons]
    have hstep : pfmStep (some e) x = if Date.lt e.1 x.1 then some x else some e := rfl
    rw [hstep]
    by_cases hex : Date.lt e.1 x.1
    · rw [if_pos hex, ih]
      constructor
      · rintro (⟨rfl, hall⟩ | ⟨pre, post, rfl, hxy, hpre, hpost⟩)
        · exact Or.inr ⟨[], rest, rfl, hex, by simp, hall⟩
        · refine Or.inr ⟨x :: pre, post, rfl, Date.lt_trans hex hxy, ?_, hpost⟩
          intro p hp
          rcases List.mem_cons.mp hp with rfl | hp'
          · exact hxy
          · exact hpre p hp'
      · rintro (⟨rfl, hall⟩ | ⟨pre, post, hsplit, hey, hpre, hpost⟩)
        · exact absurd (hall x (List.mem_cons_self _ _)) (Date.not_le_iff_lt.mpr hex)
        · cases pre with
          | nil =>
            simp only [List.nil_append, List.cons.injEq] at hsplit
            obtain ⟨rfl, rfl⟩ := hsplit
            exact Or.inl ⟨rfl, hpost⟩
          | cons q pre' =>
            simp only [List.cons_append, List.cons.injEq] at hsplit
            obtain ⟨rfl, rfl⟩ := hsplit
            refine Or.inr ⟨pre', post, rfl, hpre x (List.mem_cons_self _ _), ?_, hpost⟩
            intro p hp
            exact hpre p (List.mem_cons_of_mem _ hp)
    · rw [if_neg hex, ih]
      constructor
      · rintro (⟨rfl, hall⟩ | ⟨pre, post, rfl, hey, hpre, hpost⟩)
        · refine Or.inl ⟨rfl, ?_⟩
          intro p hp
          rcases List.mem_cons.mp hp with rfl | hp'
          · exact Date.not_lt_iff_le.mp hex
          · exact hall p hp'
        · refine Or.inr ⟨x :: pre, post, rfl, hey, ?_, hpost⟩
          intro p hp
          rcases List.mem_cons.mp hp with rfl | hp'
          · exact Date.lt_of_le_of_lt (Date.not_lt_iff_le.mp hex) hey
          · exact hpre p hp'
      · rintro (⟨rfl, hall⟩ | ⟨pre, post, hsplit, hey, hpre, hpost⟩)
        · refine Or.inl ⟨rfl, ?_⟩
          intro p hp
          exact hall p (List.mem_cons_of_mem _ hp)
        · cases pre with
          | nil =>
            simp only [List.nil_append, List.cons.injEq] at hsplit
            obtain ⟨rfl, rfl⟩ := hsplit
            exact absurd hey hex
          | cons q pre' =>
            simp only [List.cons_append, List.cons.injEq] at hsplit
            obtain ⟨rfl, rfl⟩ := hsplit
            refine Or.inr ⟨pre', post, rfl, hey, ?_, hpost⟩
            intro p hp
            exact hpre p (List.mem_cons_of_mem _ hp)

theorem pickFM_char {xs : List (Date × Amount)} {y : Date × Amount} :
    pickFM xs = some y ↔
      ∃ pre post, xs = pre ++ y :: post ∧
        (∀ p ∈ pre, Date.lt p.1 y.1) ∧ (∀ p ∈ post, Date.le p.1 y.1) := by
  cases xs with
  | nil =>
    simp only [pickFM, List.foldl_nil]
    constructor
    · rintro ⟨⟩
    · rintro ⟨pre, post, habs, _⟩
      exact absurd habs (by simp)
  | cons x rest =>
    rw [show pickFM (x :: rest) = rest.foldl pfmStep (some x) from rfl, pfm_foldl_char]
    constructor
    · rintro (⟨rfl, hall⟩ | ⟨pre, post, rfl, hxy, hpre, hpost⟩)
      · exact ⟨[], rest, rfl, by simp, hall⟩
      · refine ⟨x :: pre, post, rfl, ?_, hpost⟩
        intro p hp
        rcases List.mem_cons.mp hp with rfl | hp'
        · exact hxy
        · exact hpre p hp'
    · rintro ⟨pre, post, hsplit, hpre, hpost⟩
      cases pre with
      | nil =>
        simp only [List.nil_append, List.cons.injEq] at hsplit
        obtain ⟨rfl, rfl⟩ := hsplit
        exact Or.inl ⟨rfl, hpost⟩
      | cons q pre' =>
        simp only [List.cons_append, List.cons.injEq] at hsplit
        obtain ⟨rfl, rfl⟩ := hsplit
        refine Or.inr ⟨pre', post, rfl, hpre x (List.mem_cons_self _ _), ?_, hpost⟩
        intro p hp
        exact hpre p (List.mem_cons_of_mem _ hp)

theorem pickFM_none {xs : List (Date × Amount)} : pickFM xs = none ↔ xs = [] := by
  cases xs with
  | nil => simp [pickFM]
  | cons x rest =>
    rw [show pickFM (x :: rest) = rest.foldl pfmStep (some x) from rfl]
    obtain ⟨y, hy⟩ := @pfm_foldl_some rest x
    rw [hy]
    simp

/-! ### Normal form and contract of the normalizer -/

theorem g2b_eq (t : TransactionSchema) (account : String) :
    gocardless_transaction_to_beancount t account =
      match t.booking_date with
      | none => .error (Err.missingField "booking date is missing")
      | some bd =>
        match parseDateAndRemainder bd with
        | none => .error (Err.parseFailure "booking date")
        | some (date, _) =>
          match parseDecimal t.transaction_amount.amount with
          | none => .error (Err.parseFailure "transaction amount")
          | some v =>
            .ok { date := date, content := .transaction (g2bTransaction t account v),
                  metadata := g2bMetadata t } := by
  unfold gocardless_transaction_to_beancount
  cases t.booking_date with
  | none => rfl
  | some bd =>
    cases parseDateAndRemainder bd with
    | none => rfl
    | some p =>
      obtain ⟨d, r⟩ := p
      cases parseDecimal t.transaction_amount.amount with
      | none => rfl
      | some v => rfl

theorem g2b_ok_iff {t : TransactionSchema} {account : String} {d : Directive} :
    gocardless_transaction_to_beancount t account = .ok d ↔
      ∃ bd date rem v,
        t.booking_date = some bd ∧ parseDateAndRemainder bd = some (date, rem) ∧
        parseDecimal t.transaction_amount.amount = some v ∧
        d = { date := date, content := .transaction (g2bTransaction t account v),
              metadata := g2bMetadata t } := by
  rw [g2b_eq]
  cases hbd : t.booking_date with
  | none => simp
  | some bd =>
    dsimp only
    cases hp : parseDateAndRemainder bd with
    | none => simp [hp]
    | some p =>
      obtain ⟨dt, r⟩ := p
      dsimp only
      cases hv : parseDecimal t.transaction_amount.amount with
      | none => simp [hp, hv]
      | some v =>
        dsimp only
        constructor
        · intro h
          injection h with h
          exact ⟨bd, dt, r, v, rfl, hp, rfl, h.symm⟩
        · rintro ⟨bd', date', rem', v', hbd', hp', hv', rfl⟩
          injection hbd' with hbd'
          subst hbd'
          rw [hp'] at hp
          injection hp with hp
          injection hp with h1 h2
          subst h1
          subst h2
          injection hv' with hv'
          subst hv'
          rfl

theorem g2b_ok_shape {t : TransactionSchema} {account : String} {d : Directive}
    (h : gocardless_transaction_to_beancount t account = .ok d) :
    ∃ v, d.content = .transaction (g2bTransaction t account v) := by
  obtain ⟨bd, date, rem, v, _, _, _, rfl⟩ := g2b_ok_iff.mp h
  exact ⟨v, rfl⟩

/-! ### The booked-transactions loop -/

theorem normalizeBooked_cons {ids : List String} {account : String}
    {t : TransactionSchema} {rest : List TransactionSchema} :
    normalizeBooked ids account (t :: rest) =
      match gocardless_transaction_to_beancount t account with
      | .error e => .error e
      | .ok d =>
        match normalizeBooked ids account rest with
        | .error e => .error e
        | .ok tail => .ok (if is_duplicate d ids then tail else d :: tail) := by
  show (do
    let d ← gocardless_transaction_to_beancount t account
    let tail ← normalizeBooked ids account rest
    pure (if is_duplicate d ids then tail else d :: tail)) = _
  cases gocardless_transaction_to_beancount t account with
  | error e => rfl
  | ok d =>
    cases normalizeBooked ids account rest with
    | error e => rfl
    | ok tail => rfl

theorem normalizeBooked_mem {ids : List String} {account : String} :
    ∀ {ts : List TransactionSchema} {out : List Directive},
      normalizeBooked ids account ts = .ok out →
        ∀ d ∈ out, ∃ t ∈ ts, gocardless_transaction_to_beancount t account = .ok d ∧
          is_duplicate d ids = false := by
  intro ts
  induction ts with
  | nil =>
    intro out h d hd
    injection h with h
    subst h
    exact absurd hd (List.not_mem_nil d)
  | cons t rest ih =>
    intro out h d hd
    rw [normalizeBooked_cons] at h
    cases hg : gocardless_transaction_to_beancount t account with
    | error e => rw [hg] at h; exact absurd h (by simp)
    | ok d0 =>
      rw [hg] at h
      cases hr : normalizeBooked ids account rest with
      | error e => rw [hr] at h; exact absurd h (by simp)
      | ok tail =>
        rw [hr] at h
        injection h with h
        subst h
        by_cases hdup : is_duplicate d0 ids
        · rw [if_pos hdup] at hd
          obtain ⟨t', ht', w⟩ := ih hr d hd
          exact ⟨t', List.mem_cons_of_mem _ ht', w⟩
        · rw [if_neg hdup] at hd
          rcases List.mem_cons.mp hd with rfl | hd'
          · exact ⟨t, List.mem_cons_self _ _, hg, Bool.eq_false_iff.mpr hdup⟩
          · obtain ⟨t', ht', w⟩ := ih hr d hd'
            exact ⟨t', List.mem_cons_of_mem _ ht', w⟩

theorem normalizeBooked_sources {ids : List String} {account : String} :
    ∀ {ts : List TransactionSchema} {out : List Directive},
      normalizeBooked ids account ts = .ok out →
        ∀ t ∈ ts, ∃ d, gocardless_transaction_to_beancount t account = .ok d ∧
          (is_duplicate d ids = true ∨ d ∈ out) := by
  intro ts
  induction ts with
  | nil =>
    intro out _ t ht
    exact absurd ht (List.not_mem_nil t)
  | cons t0 rest ih =>
    intro out h t ht
    rw [normalizeBooked_cons] at h
    cases hg : gocardless_transaction_to_beancount t0 account with
    | error e => rw [hg] at h; exact absurd h (by simp)
    | ok d0 =>
      rw [hg] at h
      cases hr : normalizeBooked ids account rest with
      | error e => rw [hr] at h; exact absurd h (by simp)
      | ok tail =>
        rw [hr] at h
        injection h with h
        subst h
        rcases List.mem_cons.mp ht with rfl | ht'
        · refine ⟨d0, hg, ?_⟩
          by_cases hdup : is_duplicate d0 ids
          · exact Or.inl hdup
          · rw [if_neg hdup]
            exact Or.inr (List.mem_cons_self _ _)
        · obtain ⟨d, hd, hcase⟩ := ih hr t ht'
          refine ⟨d, hd, ?_⟩
          rcases hcase with h1 | h2
          · exact Or.inl h1
          · refine Or.inr ?_
            by_cases hdup : is_duplicate d0 ids
            · rw [if_pos hdup]; exact h2
            · rw [if_neg hdup]; exact List.mem_cons_of_mem _ h2

theorem normalizeBooked_all_dup {ids : List String} {account : String} :
    ∀ {ts : List TransactionSchema},
      (∀ t ∈ ts, ∃ d, gocardless_transaction_to_beancount t account = .ok d ∧
        is_duplicate d ids = true) →
      normalizeBooked ids account ts = .ok [] := by
  intro ts
  induction ts with
  | nil => intro _; rfl
  | cons t rest ih =>
    intro h
    obtain ⟨d, hd, hdup⟩ := h t (List.mem_cons_self _ _)
    rw [normalizeBooked_cons, hd, ih (fun t' ht' => h t' (List.mem_cons_of_mem _ ht'))]
    dsimp only
    rw [if_pos hdup]

/-! ### Stability of the date sort -/

theorem filter_orderedInsert_pos {dt : Date} {a : Directive} (ha : a.date = dt)
    (l : List Directive) :
    (List.orderedInsert byDate a l).filter (fun d => decide (d.date = dt)) =
      a :: l.filter (fun d => decide (d.date = dt)) := by
  induction l with
  | nil => simp [List.orderedInsert, ha]
  | cons b l ih =>
    rw [List.orderedInsert]
    by_cases hab : byDate a b
    · rw [if_pos hab]
      simp [List.filter_cons, ha]
    · rw [if_neg hab]
      have hbd : ¬ (b.date = dt) := by
        intro he
        apply hab
        unfold byDate
        rw [he, ha]
        exact Date.le_refl dt
      rw [List.filter_cons, List.filter_cons]
      simp only [decide_eq_true_eq, if_neg hbd]
      exact ih

theorem filter_orderedInsert_neg {dt : Date} {a : Directive} (ha : ¬ a.date = dt)
    (l : List Directive) :
    (List.orderedInsert byDate a l).filter (fun d => decide (d.date = dt)) =
      l.filter (fun d => decide (d.date = dt)) := by
  induction l with
  | nil => simp [List.orderedInsert, ha]
  | cons b l ih =>
    rw [List.orderedInsert]
    by_cases hab : byDate a b
    · rw [if_pos hab]
      rw [List.filter_cons]
      simp only [decide_eq_true_eq, if_neg ha]
    · rw [if_neg hab]
      rw [List.filter_cons, List.filter_cons]
      by_cases hbd : b.date = dt
      · simp only [decide_eq_true_eq, if_pos hbd, ih]
      · simp only [decide_eq_true_eq, if_neg hbd, ih]

theorem filter_insertionSort (dt : Date) (l : List Directive) :
    (l.insertionSort byDate).filter (fun d => decide (d.date = dt)) =
      l.filter (fun d => decide (d.date = dt)) := by
  induction l with
  | nil => rfl
  | cons a l ih =>
    rw [List.insertionSort]
    by_cases ha : a.date = dt
    · rw [filter_orderedInsert_pos ha, ih, List.filter_cons]
      simp only [decide_eq_true_eq, if_pos ha]
    · rw [filter_orderedInsert_neg ha, ih, List.filter_cons]
      simp only [decide_eq_true_eq, if_neg ha]

/-! ### The per-account transaction batch -/

theorem txnApp_eq {ids : List String} {feed : Feed} {cfg : String × String} :
    txnApp ids feed cfg =
      match normalizeBooked ids cfg.2 (feed.transactions cfg.1).transactions.booked with
      | .error e => .error e
      | .ok raw => .ok ((raw.reverse).insertionSort byDate) := by
  show (do
    let raw ← normalizeBooked ids cfg.2 (feed.transactions cfg.1).transactions.booked
    pure ((raw.reverse).insertionSort byDate)) = _
  cases normalizeBooked ids cfg.2 (feed.transactions cfg.1).transactions.booked with
  | error e => rfl
  | ok raw => rfl

theorem txnApp_ok_iff {ids : List String} {feed : Feed} {cfg : String × String}
    {out : List Directive} :
    txnApp ids feed cfg = .ok out ↔
      ∃ raw, normalizeBooked ids cfg.2 (feed.transactions cfg.1).transactions.booked = .ok raw ∧
        out = (raw.reverse).insertionSort byDate := by
  rw [txnApp_eq]
  cases hr : normalizeBooked ids cfg.2 (feed.transactions cfg.1).transactions.booked with
  | error e => simp
  | ok raw =>
    constructor
    · intro h
      injection h with h
      exact ⟨raw, rfl, h.symm⟩
    · rintro ⟨raw', hraw', rfl⟩
      injection hraw' with hraw'
      subst hraw'
      rfl

theorem txnApp_mem {ids : List String} {feed : Feed} {cfg : String × String}
    {out : List Directive} (h : txnApp ids feed cfg = .ok out) :
    ∀ d ∈ out, ∃ t ∈ (feed.transactions cfg.1).transactions.booked,
      gocardless_transaction_to_beancount t cfg.2 = .ok d ∧ is_duplicate d ids = false := by
  obtain ⟨raw, hraw, rfl⟩ := txnApp_ok_iff.mp h
  intro d hd
  rw [List.mem_insertionSort, List.mem_reverse] at hd
  exact normalizeBooked_mem hraw d hd

theorem txnApp_all_dup {ids : List String} {feed : Feed} {cfg : String × String}
    (h : ∀ t ∈ (feed.transactions cfg.1).transactions.booked,
      ∃ d, gocardless_transaction_to_beancount t cfg.2 = .ok d ∧ is_duplicate d ids = true) :
    txnApp ids feed cfg = .ok [] := by
  rw [txnApp_eq, normalizeBooked_all_dup h]
  rfl

/-! ### Normal forms of the balance step -/

theorem balApp_none {lb : String → Option (Date × Amount)} {lt : String → Option Date}
    {bag : String → Option Bag} {feed : Feed} {cfg : String × String}
    (h : (feed.balances cfg.1).balances = none) :
    balApp lb lt bag feed cfg = .ok [] := by
  unfold balApp
  rw [h]
  rfl

theorem balApp_head_none {lb : String → Option (Date × Amount)} {lt : String → Option Date}
    {bag : String → Option Bag} {feed : Feed} {cfg : String × String} {bs : List BalanceSchema}
    (h : (feed.balances cfg.1).balances = some bs) (hh : bs.head? = none) :
    balApp lb lt bag feed cfg = .ok [] := by
  unfold balApp
  rw [h]
  dsimp only
  rw [hh]
  rfl

theorem balApp_some_eq {lb : String → Option (Date × Amount)} {lt : String → Option Date}
    {bag : String → Option Bag} {feed : Feed} {cfg : String × String}
    {bs : List BalanceSchema} {b : BalanceSchema} {v : Rat}
    (hbs : (feed.balances cfg.1).balances = some bs) (hb : bs.head? = some b)
    (hv : parseDecimal b.balance_amount.amount = some v) :
    balApp lb lt bag feed cfg =
      (let amount := adjustedAmount bag cfg.2 { value := v, currency := b.balance_amount.currency }
       let skip : Bool :=
         match lb cfg.2 with
         | some (_, prev) => decide (prev = amount)
         | none => false
       if skip then .ok []
       else
         match b.reference_date with
         | some rd =>
           match parseDateAndRemainder rd with
           | none => .error (Err.parseFailure "reference date")
           | some (date, _) =>
             .ok [{ date := date, content := .balance { account := cfg.2, amount := amount },
                    metadata := [] }]
         | none =>
           match lt cfg.2 with
           | none => .error Err.noReferenceDate
           | some d =>
             .ok [{ date := nextDay d, content := .balance { account := cfg.2, amount := amount },
                    metadata := [] }]) := by
  unfold balApp
  rw [hbs]
  dsimp only
  rw [hb]
  dsimp only
  rw [hv]
  rfl

/-! ### Claim theorems: deduplication, empty balances, netting, dates -/

/-- Characterization of the duplicate filter (shared helper). -/
theorem is_duplicate_char (d : Directive) (ids : List String) :
    is_duplicate d ids = true ↔
      ∃ t, d.content = .transaction t ∧ ∃ link ∈ t.links, link ∈ ids := by
  unfold is_duplicate
  cases hc : d.content with
  | transaction t =>
    simp only [DirectiveContent.transactionOpt]
    rw [List.any_eq_true]
    constructor
    · rintro ⟨l, hl, hmem⟩
      exact ⟨t, rfl, l, hl, of_decide_eq_true hmem⟩
    · rintro ⟨t', ht', l, hl, hmem⟩
      injection ht' with ht'
      subst ht'
      exact ⟨l, hl, decide_eq_true hmem⟩
  | balance b => simp [DirectiveContent.transactionOpt]
  | openAccount acct => simp [DirectiveContent.transactionOpt]
  | otherContent => simp [DirectiveContent.transactionOpt]

/-- Claim C7: `is_duplicate(directive, imported_ids)` is true exactly when
the directive is a `Transaction` and one of its links is a member of
`imported_ids`; in particular it is false for every non-transaction
directive. -/
theorem is_duplicate_iff (d : Directive) (ids : List String) :
    is_duplicate d ids = true ↔
      ∃ t, d.content = .transaction t ∧ ∃ link ∈ t.links, link ∈ ids :=
  is_duplicate_char d ids

/-- Claim C8: only the first entry of the bank's balance list matters to
the balance step (two feeds whose balance lists have the same first entry
produce the same result), and an absent or empty balance list produces no
directive and no error. -/
theorem balance_first_entry_policy (lb : String → Option (Date × Amount))
    (lt : String → Option Date) (bag : String → Option Bag) (F F' : Feed)
    (cfg : String × String) :
    ((F.balances cfg.1).balances = none ∨ (F.balances cfg.1).balances = some [] →
      balApp lb lt bag F cfg = .ok []) ∧
    (((F.balances cfg.1).balances.getD []).head? = ((F'.balances cfg.1).balances.getD []).head? →
      balApp lb lt bag F cfg = balApp lb lt bag F' cfg) := by
  constructor
  · rintro (h | h)
    · exact balApp_none h
    · exact balApp_head_none h rfl
  · intro h
    have key : ∀ (G : Feed), balApp lb lt bag G cfg =
        (match ((G.balances cfg.1).balances.getD []).head? with
         | none => .ok []
         | some b =>
           match parseDecimal b.balance_amount.amount with
           | none => .error (Err.parseFailure "balance amount")
           | some v =>
             let amount := adjustedAmount bag cfg.2
               { value := v, currency := b.balance_amount.currency }
             let skip : Bool :=
               match lb cfg.2 with
               | some (_, prev) => decide (prev = amount)
               | none => false
             if skip then .ok []
             else
               match b.reference_date with
               | some rd =>
                 match parseDateAndRemainder rd with
                 | none => .error (Err.parseFailure "reference date")
                 | some (date, _) =>
                   .ok [{ date := date,
                          content := .balance { account := cfg.2, amount := amount },
                          metadata := [] }]
               | none =>
                 match lt cfg.2 with
                 | none => .error Err.noReferenceDate
                 | some d =>
                   .ok [{ date := nextDay d,
                          content := .balance { account := cfg.2, amount := amount },
                          metadata := [] }]) := by
      intro G
      cases hbs : (G.balances cfg.1).balances with
      | none => rw [balApp_none hbs]; rfl
      | some bs =>
        cases hh : bs.head? with
        | none => rw [balApp_head_none hbs hh]; simp [hh]
        | some b =>
          cases hv : parseDecimal b.balance_amount.amount with
          | none =>
            unfold balApp
            rw [hbs]
            dsimp only
            rw [hh]
            dsimp only
            rw [hv]
            simp [hh, hv]
          | some v =>
            rw [balApp_some_eq hbs hh hv]
            simp only [Option.getD_some, hh, hv]
    rw [key F, key F', h]

/-- Claim C5: the adjusted balance is the reported amount minus the
pending bag's value for the reported currency (minus zero when none is
tracked), and when the last known assertion's amount equals the adjusted
amount exactly, the balance step emits nothing. -/
theorem pending_netting_and_skip
    (bag : String → Option Bag) (lb : String → Option (Date × Amount))
    (lt : String → Option Date) (feed : Feed) (cfg : String × String)
    (acct : String) (reported : Amount) (bs : List BalanceSchema) (b : BalanceSchema)
    (v : Rat) (d0 : Date) (prev : Amount) :
    (adjustedAmount bag acct reported =
      { value := reported.value -
          ((bag acct).bind (fun bg => bagGet bg reported.currency)).getD 0,
        currency := reported.currency }) ∧
    ((feed.balances cfg.1).balances = some bs → bs.head? = some b →
      parseDecimal b.balance_amount.amount = some v →
      lb cfg.2 = some (d0, prev) →
      prev = adjustedAmount bag cfg.2 { value := v, currency := b.balance_amount.currency } →
      balApp lb lt bag feed cfg = .ok []) := by
  constructor
  · unfold adjustedAmount
    cases hba : bag acct with
    | none => simp
    | some bg =>
      dsimp only
      cases hbg : bagGet bg reported.currency with
      | none => simp [hbg]
      | some a => simp [hbg]
  · intro hbs hb hv hlb heq
    rw [balApp_some_eq hbs hb hv]
    simp [hlb, heq]

/-- Claim C6: when a balance assertion is emitted, its date is the parsed
bank reference date when present, else one day after the account's last
known transaction date; when neither exists the step fails with
`noReferenceDate`. -/
theorem balance_date_selection
    (lb : String → Option (Date × Amount)) (lt : String → Option Date)
    (bag : String → Option Bag) (feed : Feed) (cfg : String × String)
    (bs : List BalanceSchema) (b : BalanceSchema) (v : Rat)
    (hbs : (feed.balances cfg.1).balances = some bs) (hb : bs.head? = some b)
    (hv : parseDecimal b.balance_amount.amount = some v)
    (hnoskip : ∀ p, lb cfg.2 = some p →
      p.2 ≠ adjustedAmount bag cfg.2 { value := v, currency := b.balance_amount.currency }) :
    (∀ rd date rem, b.reference_date = some rd →
      parseDateAndRemainder rd = some (date, rem) →
      balApp lb lt bag feed cfg =
        .ok [{ date := date,
               content := .balance { account := cfg.2, amount := adjustedAmount bag cfg.2 { value := v, currency := b.balance_amount.currency } },
               metadata := [] }]) ∧
    (∀ d0, b.reference_date = none → lt cfg.2 = some d0 →
      balApp lb lt bag feed cfg =
        .ok [{ date := nextDay d0,
               content := .balance { account := cfg.2, amount := adjustedAmount bag cfg.2 { value := v, currency := b.balance_amount.currency } },
               metadata := [] }]) ∧
    (b.reference_date = none → lt cfg.2 = none →
      balApp lb lt bag feed cfg = .error Err.noReferenceDate) := by
  have hskip : (match lb cfg.2 with
      | some (_, prev) =>
        decide (prev = adjustedAmount bag cfg.2
          { value := v, currency := b.balance_amount.currency })
      | none => false) = false := by
    cases hlb : lb cfg.2 with
    | none => rfl
    | some p =>
      obtain ⟨pd, pa⟩ := p
      exact decide_eq_false (hnoskip (pd, pa) hlb)
  refine ⟨?_, ?_, ?_⟩
  · intro rd date rem hrd hpd
    rw [balApp_some_eq hbs hb hv]
    dsimp only
    rw [hskip]
    simp only [Bool.false_eq_true, if_false, hrd, hpd]
  · intro d0 hrd hlt
    rw [balApp_some_eq hbs hb hv]
    dsimp only
    rw [hskip]
    simp only [Bool.false_eq_true, if_false, hrd, hlt]
  · intro hrd hlt
    rw [balApp_some_eq hbs hb hv]
    dsimp only
    rw [hskip]
    simp only [Bool.false_eq_true, if_false, hrd, hlt]

/-- Claim C2: the per-account batch of new directives is the reversed
feed list stably sorted by date: the output is sorted by non-decreasing
date, and within one date the directives appear in reversed-feed order. -/
theorem txnApp_sorted_stable (ids : List String) (feed : Feed) (cfg : String × String)
    (raw out : List Directive)
    (hraw : normalizeBooked ids cfg.2 (feed.transactions cfg.1).transactions.booked = .ok raw)
    (hout : txnApp ids feed cfg = .ok out) :
    List.Sorted byDate out ∧
      ∀ dt, out.filter (fun d => decide (d.date = dt)) =
        (raw.reverse).filter (fun d => decide (d.date = dt)) := by
  obtain ⟨raw', hraw', heq⟩ := txnApp_ok_iff.mp hout
  rw [hraw] at hraw'
  injection hraw' with hraw'
  subst hraw'
  subst heq
  exact ⟨List.sorted_insertionSort byDate _, fun dt => filter_insertionSort dt _⟩

/-- Booked record used by the ordering example of the spec. -/
def c2Record (bd tid : String) : TransactionSchema :=
  { booking_date := some bd, booking_date_time := none, value_date_time := none,
    debtor_name := none, debtor_account := none, creditor_name := none,
    creditor_account := none, currency_exchange := none,
    proprietary_bank_transaction_code := none,
    remittance_information_unstructured := none,
    remittance_information_unstructured_array := none,
    internal_transaction_id := some tid,
    transaction_amount := { amount := "1.00", currency := "EUR" } }

/-- Feed carrying the spec's ordering example: booked dates
`[2024-03-05, 2024-03-01, 2024-03-03]` in feed order. -/
def c2Feed : Feed :=
  { transactions := fun _ =>
      { transactions :=
          { booked := [c2Record "2024-03-05" "a", c2Record "2024-03-01" "b",
                       c2Record "2024-03-03" "c"],
            pending := none } }
    balances := fun _ => { balances := none } }

/-- The normalized batch of the ordering example, in feed order. -/
def c2Raw : List Directive :=
  match normalizeBooked [] "Assets:Bank" (c2Feed.transactions "ACC").transactions.booked with
  | .ok l => l
  | .error _ => []

/-- The appended batch of the ordering example. -/
def c2Out : List Directive :=
  match txnApp [] c2Feed ("ACC", "Assets:Bank") with
  | .ok l => l
  | .error _ => []

theorem txnApp_sorted_stable_witness :
    (List.Sorted byDate c2Out ∧
      ∀ dt, c2Out.filter (fun d => decide (d.date = dt)) =
        (c2Raw.reverse).filter (fun d => decide (d.date = dt))) ∧
    c2Out.map (fun d => d.date) =
      [{ year := 2024, month := 3, day := 1 }, { year := 2024, month := 3, day := 3 },
       { year := 2024, month := 3, day := 5 }] :=
  ⟨txnApp_sorted_stable [] c2Feed ("ACC", "Assets:Bank") c2Raw c2Out rfl rfl, by decide⟩

/-- Claim C3 (amended): `last_balance[account]` is the latest-dated
balance entry for the account; on a date tie the one seen FIRST in scan
order wins (the scan replaces the incumbent only on a strictly later
date). -/
theorem scan_last_balance_latest_first_seen (l : List Directive) (a : String)
    (d : Date) (amt : Amount) :
    (l.foldl scanDirective
        { ids := [], last_balance := fun _ => none,
          last_transaction := fun _ => none }).last_balance a = some (d, amt) ↔
      ∃ pre post, balancesOf l a = pre ++ (d, amt) :: post ∧
        (∀ p ∈ pre, Date.lt p.1 d) ∧ (∀ p ∈ post, Date.le p.1 d) := by
  rw [scanList_last_balance]
  exact pickFM_char

/-- Two same-date balance assertions for one account, in scan order. -/
def c3Dirs : List Directive :=
  [{ date := { year := 2024, month := 1, day := 1 },
     content := .balance { account := "Assets:A", amount := { value := 1, currency := "EUR" } },
     metadata := [] },
   { date := { year := 2024, month := 1, day := 1 },
     content := .balance { account := "Assets:A", amount := { value := 2, currency := "EUR" } },
     metadata := [] }]

/-- Claim C3 counterexample: on a date tie the scan keeps the first-seen
amount (1 EUR), not the last-seen one (2 EUR) that the claim names. -/
theorem lastBalance_tie_counterexample :
    (c3Dirs.foldl scanDirective
        { ids := [], last_balance := fun _ => none,
          last_transaction := fun _ => none }).last_balance "Assets:A" =
      some ({ year := 2024, month := 1, day := 1 }, { value := 1, currency := "EUR" }) ∧
    (balancesOf c3Dirs "Assets:A").getLast? =
      some ({ year := 2024, month := 1, day := 1 }, { value := 2, currency := "EUR" }) ∧
    ({ value := 1, currency := "EUR" } : Amount) ≠ { value := 2, currency := "EUR" } := by
  refine ⟨rfl, rfl, ?_⟩
  decide

/-- Claim C4 (amended): the normalizer fails with `missingField` exactly
when the booking date is absent, fails with `parseFailure` when the
booking date or the transaction amount does not parse, and succeeds in
every remaining case. -/
theorem g2b_total_contract (t : TransactionSchema) (account : String) :
    (t.booking_date = none →
      gocardless_transaction_to_beancount t account =
        .error (Err.missingField "booking date is missing")) ∧
    (∀ bd, t.booking_date = some bd → parseDateAndRemainder bd = none →
      gocardless_transaction_to_beancount t account =
        .error (Err.parseFailure "booking date")) ∧
    (∀ bd p, t.booking_date = some bd → parseDateAndRemainder bd = some p →
      parseDecimal t.transaction_amount.amount = none →
      gocardless_transaction_to_beancount t account =
        .error (Err.parseFailure "transaction amount")) ∧
    (∀ bd p v, t.booking_date = some bd → parseDateAndRemainder bd = some p →
      parseDecimal t.transaction_amount.amount = some v →
      ∃ d, gocardless_transaction_to_beancount t account = .ok d) := by
  refine ⟨?_, ?_, ?_, ?_⟩
  · intro h
    rw [g2b_eq, h]
  · intro bd h1 h2
    rw [g2b_eq, h1]
    dsimp only
    rw [h2]
  · intro bd p h1 h2 h3
    obtain ⟨pd, pr⟩ := p
    rw [g2b_eq, h1]
    dsimp only
    rw [h2]
    dsimp only
    rw [h3]
  · intro bd p v h1 h2 h3
    obtain ⟨pd, pr⟩ := p
    rw [g2b_eq, h1]
    dsimp only
    rw [h2]
    dsimp only
    rw [h3]
    exact ⟨_, rfl⟩

/-- A record whose booking date is present but malformed, with a
perfectly parseable amount. -/
def c4Bad : TransactionSchema :=
  { booking_date := some "bad-date", booking_date_time := none, value_date_time := none,
    debtor_name := none, debtor_account := none, creditor_name := none,
    creditor_account := none, currency_exchange := none,
    proprietary_bank_transaction_code := none,
    remittance_information_unstructured := none,
    remittance_information_unstructured_array := none,
    internal_transaction_id := none,
    transaction_amount := { amount := "5.00", currency := "EUR" } }

/-- Claim C4 counterexample: the record has a booking date and a
parseable amount, so the claim says normalization succeeds; the code
fails (with a parse error, not `missingField`). -/
theorem g2b_unparseable_date_fails :
    c4Bad.booking_date = some "bad-date" ∧
    parseDecimal c4Bad.transaction_amount.amount = some 5 ∧
    gocardless_transaction_to_beancount c4Bad "Assets:A" =
      .error (Err.parseFailure "booking date") := by
  refine ⟨rfl, by decide, rfl⟩

/-! ### Normal forms and structure of the per-file phases -/

theorem txnStep_eq {ids : List String} {feed : Feed} {st : TxnState} {cfg : String × String} :
    txnStep ids feed st cfg =
      match txnApp ids feed cfg with
      | .error e => .error e
      | .ok new2 =>
        match addPendings st.pending_bag cfg.2
            ((feed.transactions cfg.1).transactions.pending.getD []) with
        | .error e => .error e
        | .ok bag =>
          .ok { directives := st.directives ++ new2,
                last_transaction :=
                  match new2.getLast? with
                  | some d => updateLastDate st.last_transaction cfg.2 d.date
                  | none => st.last_transaction,
                pending_bag := bag } := by
  unfold txnStep
  cases h1 : txnApp ids feed cfg with
  | error e => simp
  | ok new2 =>
    cases h2 : addPendings st.pending_bag cfg.2
        ((feed.transactions cfg.1).transactions.pending.getD []) with
    | error e => simp [h2]
    | ok bag => simp [h2]

/-- The pending-bag accumulation of one file's account list, in
isolation: it depends only on the configured accounts and the feed. -/
def bagFold (feed : Feed) : (String → Option Bag) → List (String × String) →
    Except Err (String → Option Bag)
  | m, [] => pure m
  | m, cfg :: rest =>
    match addPendings m cfg.2 ((feed.transactions cfg.1).transactions.pending.getD []) with
    | .error e => .error e
    | .ok m' => bagFold feed m' rest

theorem txnPhase_bag {ids : List String} {feed : Feed} :
    ∀ {cfgs : List (String × String)} {st st' : TxnState},
      txnPhase ids feed st cfgs = .ok st' →
      bagFold feed st.pending_bag cfgs = .ok st'.pending_bag := by
  intro cfgs
  induction cfgs with
  | nil =>
    intro st st' h
    injection h with h
    subst h
    rfl
  | cons cfg rest ih =>
    intro st st' h
    rw [show txnPhase ids feed st (cfg :: rest) = (do
        let st1 ← txnStep ids feed st cfg
        txnPhase ids feed st1 rest) from rfl] at h
    cases hs : txnStep ids feed st cfg with
    | error e => rw [hs] at h; exact absurd h (by simp)
    | ok st1 =>
      rw [hs] at h
      rw [exceptBindOk] at h
      rw [txnStep_eq] at hs
      unfold bagFold
      cases h1 : txnApp ids feed cfg with
      | error e => rw [h1] at hs; exact absurd hs (by simp)
      | ok new2 =>
        rw [h1] at hs
        cases h2 : addPendings st.pending_bag cfg.2
            ((feed.transactions cfg.1).transactions.pending.getD []) with
        | error e => rw [h2] at hs; exact absurd hs (by simp)
        | ok bag =>
          rw [h2] at hs
          injection hs with hs
          subst hs
          exact ih h

theorem txnPhase_shape {ids : List String} {feed : Feed} :
    ∀ {cfgs : List (String × String)} {st st' : TxnState},
      txnPhase ids feed st cfgs = .ok st' →
      ∃ A, st'.directives = st.directives ++ A ∧
        ∀ d ∈ A, ∃ cfg ∈ cfgs, ∃ t ∈ (feed.transactions cfg.1).transactions.booked,
          gocardless_transaction_to_beancount t cfg.2 = .ok d := by
  intro cfgs
  induction cfgs with
  | nil =>
    intro st st' h
    injection h with h
    subst h
    exact ⟨[], by simp, by simp⟩
  | cons cfg rest ih =>
    intro st st' h
    rw [show txnPhase ids feed st (cfg :: rest) = (do
        let st1 ← txnStep ids feed st cfg
        txnPhase ids feed st1 rest) from rfl] at h
    cases hs : txnStep ids feed st cfg with
    | error e => rw [hs] at h; exact absurd h (by simp)
    | ok st1 =>
      rw [hs] at h
      rw [exceptBindOk] at h
      rw [txnStep_eq] at hs
      cases h1 : txnApp ids feed cfg with
      | error e => rw [h1] at hs; exact absurd hs (by simp)
      | ok new2 =>
        rw [h1] at hs
        cases h2 : addPendings st.pending_bag cfg.2
            ((feed.transactions cfg.1).transactions.pending.getD []) with
        | error e => rw [h2] at hs; exact absurd hs (by simp)
        | ok bag =>
          rw [h2] at hs
          injection hs with hs
          subst hs
          obtain ⟨A, hA, hAmem⟩ := ih h
          refine ⟨new2 ++ A, by simpa [List.append_assoc] using hA, ?_⟩
          intro d hd
          rcases List.mem_append.mp hd with hd1 | hd2
          · obtain ⟨t, ht, hok, _⟩ := txnApp_mem h1 d hd1
            exact ⟨cfg, List.mem_cons_self _ _, t, ht, hok⟩
          · obtain ⟨cfg', hcfg', w⟩ := hAmem d hd2
            exact ⟨cfg', List.mem_cons_of_mem _ hcfg', w⟩

theorem txnPhase_pointwise {ids : List String} {feed : Feed} :
    ∀ {cfgs : List (String × String)} {st st' : TxnState},
      txnPhase ids feed st cfgs = .ok st' →
      ∀ cfg ∈ cfgs, ∃ app, txnApp ids feed cfg = .ok app ∧ ∀ d ∈ app, d ∈ st'.directives := by
  intro cfgs
  induction cfgs with
  | nil =>
    intro st st' _ cfg hcfg
    exact absurd hcfg (List.not_mem_nil cfg)
  | cons cfg0 rest ih =>
    intro st st' h cfg hcfg
    rw [show txnPhase ids feed st (cfg0 :: rest) = (do
        let st1 ← txnStep ids feed st cfg0
        txnPhase ids feed st1 rest) from rfl] at h
    cases hs : txnStep ids feed st cfg0 with
    | error e => rw [hs] at h; exact absurd h (by simp)
    | ok st1 =>
      rw [hs] at h
      rw [exceptBindOk] at h
      rcases List.mem_cons.mp hcfg with rfl | hcfg'
      · rw [txnStep_eq] at hs
        cases h1 : txnApp ids feed cfg with
        | error e => rw [h1] at hs; exact absurd hs (by simp)
        | ok new2 =>
          rw [h1] at hs
          cases h2 : addPendings st.pending_bag cfg.2
              ((feed.transactions cfg.1).transactions.pending.getD []) with
          | error e => rw [h2] at hs; exact absurd hs (by simp)
          | ok bag =>
            rw [h2] at hs
            injection hs with hs
            subst hs
            obtain ⟨A, hA, _⟩ := txnPhase_shape h
            refine ⟨new2, rfl, ?_⟩
            intro d hd
            rw [hA]
            dsimp only
            exact List.mem_append_left A (List.mem_append_right st.directives hd)
      · exact ih h cfg hcfg'

theorem txnPhase_run2 {ids : List String} {feed : Feed} :
    ∀ {cfgs : List (String × String)} {st : TxnState} {bag : String → Option Bag},
      (∀ cfg ∈ cfgs, txnApp ids feed cfg = .ok []) →
      bagFold feed st.pending_bag cfgs = .ok bag →
      txnPhase ids feed st cfgs = .ok { st with pending_bag := bag } := by
  intro cfgs
  induction cfgs with
  | nil =>
    intro st bag _ hbag
    injection hbag with hbag
    subst hbag
    rfl
  | cons cfg rest ih =>
    intro st bag hall hbag
    unfold bagFold at hbag
    cases h2 : addPendings st.pending_bag cfg.2
        ((feed.transactions cfg.1).transactions.pending.getD []) with
    | error e => rw [h2] at hbag; exact absurd hbag (by simp)
    | ok m' =>
      rw [h2] at hbag
      rw [show txnPhase ids feed st (cfg :: rest) = (do
          let st1 ← txnStep ids feed st cfg
          txnPhase ids feed st1 rest) from rfl]
      rw [txnStep_eq, hall cfg (List.mem_cons_self _ _), h2]
      dsimp only
      rw [exceptBindOk]
      have hrest := @ih ⟨st.directives ++ [], st.last_transaction, m'⟩ bag
        (fun c hc => hall c (List.mem_cons_of_mem _ hc)) hbag
      simpa using hrest

theorem balApp_shape {lb : String → Option (Date × Amount)} {lt : String → Option Date}
    {bag : String → Option Bag} {feed : Feed} {cfg : String × String} {app : List Directive}
    (h : balApp lb lt bag feed cfg = .ok app) :
    app = [] ∨ ∃ dt amt,
      app = [{ date := dt, content := .balance { account := cfg.2, amount := amt },
               metadata := [] }] := by
  cases hbs : (feed.balances cfg.1).balances with
  | none =>
    rw [balApp_none hbs] at h
    injection h with h
    exact Or.inl h.symm
  | some bs =>
    cases hh : bs.head? with
    | none =>
      rw [balApp_head_none hbs hh] at h
      injection h with h
      exact Or.inl h.symm
    | some b =>
      cases hv : parseDecimal b.balance_amount.amount with
      | none =>
        unfold balApp at h
        rw [hbs] at h
        dsimp only at h
        rw [hh] at h
        dsimp only at h
        rw [hv] at h
        exact absurd h (by simp)
      | some v =>
        rw [balApp_some_eq hbs hh hv] at h
        dsimp only at h
        by_cases hskip : (match lb cfg.2 with
            | some (_, prev) =>
              decide (prev = adjustedAmount bag cfg.2
                { value := v, currency := b.balance_amount.currency })
            | none => false) = true
        · rw [if_pos hskip] at h
          injection h with h
          exact Or.inl h.symm
        · rw [if_neg hskip] at h
          cases hrd : b.reference_date with
          | some rd =>
            rw [hrd] at h
            dsimp only at h
            cases hpd : parseDateAndRemainder rd with
            | none => rw [hpd] at h; exact absurd h (by simp)
            | some p =>
              obtain ⟨pd, pr⟩ := p
              rw [hpd] at h
              injection h with h
              exact Or.inr ⟨pd, _, h.symm⟩
          | none =>
            rw [hrd] at h
            dsimp only at h
            cases hlt : lt cfg.2 with
            | none => rw [hlt] at h; exact absurd h (by simp)
            | some d0 =>
              rw [hlt] at h
              injection h with h
              exact Or.inr ⟨nextDay d0, _, h.symm⟩

theorem balPhase_nil_eq {lb : String → Option (Date × Amount)} {lt : String → Option Date}
    {bag : String → Option Bag} {feed : Feed} {dirs : List Directive} :
    balPhase lb lt bag feed dirs [] = .ok dirs := rfl

theorem balPhase_cons_eq {lb : String → Option (Date × Amount)} {lt : String → Option Date}
    {bag : String → Option Bag} {feed : Feed} {dirs : List Directive}
    {cfg : String × String} {rest : List (String × String)} :
    balPhase lb lt bag feed dirs (cfg :: rest) =
      match balApp lb lt bag feed cfg with
      | .error e => .error e
      | .ok app => balPhase lb lt bag feed (dirs ++ app) rest := by
  show (do
    let app ← balApp lb lt bag feed cfg
    balPhase lb lt bag feed (dirs ++ app) rest) = _
  cases balApp lb lt bag feed cfg with
  | error e => rfl
  | ok app => rfl

/-- The balance entries for one account contributed by a singleton
emitted balance directive. -/
theorem balancesOf_singleton {dt : Date} {acc : String} {amt : Amount} {a : String} :
    balancesOf [{ date := dt, content := .balance { account := acc, amount := amt },
                  metadata := [] }] a =
      if acc = a then [(dt, amt)] else [] := by
  unfold balancesOf
  rw [List.filterMap_cons]
  dsimp only
  by_cases h : acc = a
  · rw [if_pos h, if_pos h]
    rfl
  · rw [if_neg h, if_neg h]
    rfl

theorem balPhase_structure {lb : String → Option (Date × Amount)} {lt : String → Option Date}
    {bag : String → Option Bag} {feed : Feed} :
    ∀ {cfgs : List (String × String)} {dirs dirs' : List Directive},
      ((cfgs.map (fun c => c.2)).Nodup) →
      balPhase lb lt bag feed dirs cfgs = .ok dirs' →
      ∃ B, dirs' = dirs ++ B ∧
        (∀ d ∈ B, ∃ bc, d.content = .balance bc) ∧
        (∀ a, a ∉ cfgs.map (fun c => c.2) → balancesOf B a = []) ∧
        (∀ cfg ∈ cfgs, ∃ app, balApp lb lt bag feed cfg = .ok app ∧
          balancesOf B cfg.2 = balancesOf app cfg.2) := by
  intro cfgs
  induction cfgs with
  | nil =>
    intro dirs dirs' _ h
    injection h with h
    subst h
    refine ⟨[], by simp, by simp, fun a _ => rfl, by simp⟩
  | cons cfg rest ih =>
    intro dirs dirs' hnd h
    rw [balPhase_cons_eq] at h
    cases ha : balApp lb lt bag feed cfg with
    | error e => rw [ha] at h; exact absurd h (by simp)
    | ok app =>
      rw [ha] at h
      rw [List.map_cons, List.nodup_cons] at hnd
      obtain ⟨hcfg2, hnd'⟩ := hnd
      obtain ⟨B1, hB1, hBbal, hBnone, hBpt⟩ := ih hnd' h
      refine ⟨app ++ B1, by rw [hB1, List.append_assoc], ?_, ?_, ?_⟩
      · intro d hd
        rcases List.mem_append.mp hd with hd1 | hd2
        · rcases balApp_shape ha with rfl | ⟨dt, amt, rfl⟩
          · exact absurd hd1 (List.not_mem_nil d)
          · rcases List.mem_cons.mp hd1 with rfl | habs
            · exact ⟨_, rfl⟩
            · exact absurd habs (List.not_mem_nil d)
        · exact hBbal d hd2
      · intro a hna
        rw [balancesOf_append]
        have h1 : balancesOf app a = [] := by
          rcases balApp_shape ha with rfl | ⟨dt, amt, rfl⟩
          · rfl
          · rw [balancesOf_singleton]
            refine if_neg (fun he => hna ?_)
            rw [← he]
            exact List.mem_cons_self _ _
        have h2 : balancesOf B1 a = [] :=
          hBnone a (fun hm => hna (List.mem_cons_of_mem _ hm))
        rw [h1, h2]
        rfl
      · intro c hc
        rcases List.mem_cons.mp hc with rfl | hc'
        · refine ⟨app, ha, ?_⟩
          rw [balancesOf_append]
          have h2 : balancesOf B1 c.2 = [] := hBnone c.2 hcfg2
          rw [h2, List.append_nil]
        · obtain ⟨app', ha', heq'⟩ := hBpt c hc'
          refine ⟨app', ha', ?_⟩
          rw [balancesOf_append]
          have h1 : balancesOf app c.2 = [] := by
            rcases balApp_shape ha with rfl | ⟨dt, amt, rfl⟩
            · rfl
            · rw [balancesOf_singleton]
              have hne : cfg.2 ≠ c.2 := by
                intro he
                apply hcfg2
                rw [he]
                exact List.mem_map_of_mem (fun x => x.2) hc'
              rw [if_neg hne]
          rw [h1, List.nil_append, heq']

theorem balPhase_all_skip {lb : String → Option (Date × Amount)} {lt : String → Option Date}
    {bag : String → Option Bag} {feed : Feed} :
    ∀ {cfgs : List (String × String)} {dirs : List Directive},
      (∀ cfg ∈ cfgs, balApp lb lt bag feed cfg = .ok []) →
      balPhase lb lt bag feed dirs cfgs = .ok dirs := by
  intro cfgs
  induction cfgs with
  | nil => intro dirs _; rfl
  | cons cfg rest ih =>
    intro dirs hall
    rw [balPhase_cons_eq, hall cfg (List.mem_cons_self _ _)]
    dsimp only
    rw [List.append_nil]
    exact ih (fun c hc => hall c (List.mem_cons_of_mem _ hc))

/-! ### File-level structure -/

theorem processFile_eq {ids : List String} {lb : String → Option (Date × Amount)}
    {lt : String → Option Date} {feed : Feed} {f : LedgerFile} :
    processFile ids lb lt feed f =
      match txnPhase ids feed ⟨f.directives, lt, fun _ => none⟩ (toImport f) with
      | .error e => .error e
      | .ok st =>
        match balPhase lb st.last_transaction st.pending_bag feed st.directives (toImport f) with
        | .error e => .error e
        | .ok dirs => .ok (⟨dirs⟩, st.last_transaction) := by
  unfold processFile
  dsimp only
  cases h1 : txnPhase ids feed ⟨f.directives, lt, fun _ => none⟩ (toImport f) with
  | error e => rfl
  | ok st =>
    rw [exceptBindOk]
    dsimp only
    cases h2 : balPhase lb st.last_transaction st.pending_bag feed st.directives (toImport f) with
    | error e => rfl
    | ok dirs => rfl

theorem processFiles_cons_eq {ids : List String} {lb : String → Option (Date × Amount)}
    {feed : Feed} {lt : String → Option Date} {f : LedgerFile} {fs : List LedgerFile} :
    processFiles ids lb feed lt (f :: fs) =
      match processFile ids lb lt feed f with
      | .error e => .error e
      | .ok r =>
        match processFiles ids lb feed r.2 fs with
        | .error e => .error e
        | .ok fs' => .ok (r.1 :: fs') := by
  show (do
    let r ← processFile ids lb lt feed f
    let fs' ← processFiles ids lb feed r.2 fs
    pure (r.1 :: fs')) = _
  cases processFile ids lb lt feed f with
  | error e => rfl
  | ok r =>
    rw [exceptBindOk]
    dsimp only
    cases processFiles ids lb feed r.2 fs with
    | error e => rfl
    | ok fs' => rfl

/-- Appended directives carry no `Open` content, so they contribute
no import configuration. -/
theorem openConfig_not_open {d : Directive}
    (h : (∃ tx, d.content = .transaction tx) ∨ ∃ bc, d.content = .balance bc) :
    openConfig d = none := by
  unfold openConfig
  rcases h with ⟨tx, htx⟩ | ⟨bc, hbc⟩
  · rw [htx]
  · rw [hbc]

theorem toImport_append {dirs app : List Directive}
    (h : ∀ d ∈ app, (∃ tx, d.content = .transaction tx) ∨ ∃ bc, d.content = .balance bc) :
    toImport ⟨dirs ++ app⟩ = toImport ⟨dirs⟩ := by
  unfold toImport
  dsimp only
  rw [List.filterMap_append]
  have : app.filterMap openConfig = [] := by
    rw [List.filterMap_eq_nil_iff]
    intro d hd
    rw [openConfig_not_open (h d hd)]
  rw [this, List.append_nil]

/-- The balance loop only appends balance directives. -/
theorem balPhase_shape {lb : String → Option (Date × Amount)} {lt : String → Option Date}
    {bag : String → Option Bag} {feed : Feed} :
    ∀ {cfgs : List (String × String)} {dirs dirs' : List Directive},
      balPhase lb lt bag feed dirs cfgs = .ok dirs' →
      ∃ B, dirs' = dirs ++ B ∧ ∀ d ∈ B, ∃ bc, d.content = .balance bc := by
  intro cfgs
  induction cfgs with
  | nil =>
    intro dirs dirs' h
    injection h with h
    subst h
    exact ⟨[], by simp, by simp⟩
  | cons cfg rest ih =>
    intro dirs dirs' h
    rw [balPhase_cons_eq] at h
    cases ha : balApp lb lt bag feed cfg with
    | error e => rw [ha] at h; exact absurd h (by simp)
    | ok app =>
      rw [ha] at h
      obtain ⟨B1, hB1, hBmem⟩ := ih h
      refine ⟨app ++ B1, by rw [hB1, List.append_assoc], ?_⟩
      intro d hd
      rcases List.mem_append.mp hd with hd1 | hd2
      · rcases balApp_shape ha with rfl | ⟨dt, amt, rfl⟩
        · exact absurd hd1 (List.not_mem_nil d)
        · rcases List.mem_cons.mp hd1 with rfl | habs
          · exact ⟨_, rfl⟩
          · exact absurd habs (List.not_mem_nil d)
      · exact hBmem d hd2

/-- One processed file: the result appends only transaction and balance
directives to the original sequence. -/
theorem processFile_shape {ids : List String} {lb : String → Option (Date × Amount)}
    {lt : String → Option Date} {feed : Feed} {f : LedgerFile} {f' : LedgerFile}
    {lt' : String → Option Date}
    (h : processFile ids lb lt feed f = .ok (f', lt')) :
    ∃ app, f'.directives = f.directives ++ app ∧
      ∀ d ∈ app, (∃ tx, d.content = .transaction tx) ∨ ∃ bc, d.content = .balance bc := by
  rw [processFile_eq] at h
  cases h1 : txnPhase ids feed ⟨f.directives, lt, fun _ => none⟩ (toImport f) with
  | error e => rw [h1] at h; exact absurd h (by simp)
  | ok st =>
    rw [h1] at h
    dsimp only at h
    cases h2 : balPhase lb st.last_transaction st.pending_bag feed st.directives (toImport f) with
    | error e => rw [h2] at h; exact absurd h (by simp)
    | ok dirs =>
      rw [h2] at h
      injection h with h
      injection h with hfst hsnd
      obtain ⟨A, hA, hAmem⟩ := txnPhase_shape h1
      obtain ⟨B, hB, hBmem⟩ := balPhase_shape h2
      refine ⟨A ++ B, ?_, ?_⟩
      · rw [← hfst, hB, hA]
        dsimp only
        rw [List.append_assoc]
      · intro d hd
        rcases List.mem_append.mp hd with hd1 | hd2
        · obtain ⟨cfg, _, t, _, hok⟩ := hAmem d hd1
          obtain ⟨v, hv⟩ := g2b_ok_shape hok
          exact Or.inl ⟨_, hv⟩
        · exact Or.inr (hBmem d hd2)

/-- The whole pass appends only transaction and balance directives, file
by file. -/
theorem processFiles_shape {ids : List String} {lb : String → Option (Date × Amount)}
    {feed : Feed} :
    ∀ {fs : List LedgerFile} {lt : String → Option Date} {fs' : List LedgerFile},
      processFiles ids lb feed lt fs = .ok fs' →
      List.Forall₂ (fun f f' =>
        ∃ app, (f' : LedgerFile).directives = (f : LedgerFile).directives ++ app ∧
          ∀ d ∈ app, (∃ tx, d.content = .transaction tx) ∨ ∃ bc, d.content = .balance bc)
        fs fs' := by
  intro fs
  induction fs with
  | nil =>
    intro lt fs' h
    injection h with h
    subst h
    exact List.Forall₂.nil
  | cons f rest ih =>
    intro lt fs' h
    rw [processFiles_cons_eq] at h
    cases h1 : processFile ids lb lt feed f with
    | error e => rw [h1] at h; exact absurd h (by simp)
    | ok r =>
      rw [h1] at h
      dsimp only at h
      cases h2 : processFiles ids lb feed r.2 rest with
      | error e => rw [h2] at h; exact absurd h (by simp)
      | ok rest' =>
        rw [h2] at h
        injection h with h
        subst h
        have hr : processFile ids lb lt feed f = .ok (r.1, r.2) := by
          rw [h1]
        exact List.Forall₂.cons (processFile_shape hr) (ih h2)

/-- Claim C9: the import pass only appends: on success the ledger keeps
the same number of files, and each file's original directive sequence is
an unchanged prefix of the resulting sequence (existing directives are
neither modified nor removed; the history scan itself is a pure fold that
returns indices and leaves the ledger untouched). -/
theorem runImport_append_only (L : Ledger) (feed : Feed) (L' : Ledger)
    (h : runImport L feed = .ok L') :
    L'.files.length = L.files.length ∧
      ∀ i (h1 : i < L.files.length) (h2 : i < L'.files.length),
        ∃ app, (L'.files.get ⟨i, h2⟩).directives = (L.files.get ⟨i, h1⟩).directives ++ app := by
  unfold runImport at h
  dsimp only at h
  cases hp : processFiles (scanLedger L).ids (scanLedger L).last_balance feed
      (scanLedger L).last_transaction L.files with
  | error e => rw [hp] at h; exact absurd h (by simp)
  | ok files =>
    rw [hp] at h
    injection h with h
    subst h
    have hsh := processFiles_shape hp
    refine ⟨hsh.length_eq.symm, ?_⟩
    intro i h1 h2
    obtain ⟨app, happ, _⟩ := hsh.get h1 h2
    exact ⟨app, happ⟩

/-- A one-file ledger with a single configured account and no bank data,
used to witness the frame property. -/
def c9Ledger : Ledger :=
  { files := [⟨[{ date := { year := 2024, month := 1, day := 1 },
                  content := .openAccount "Assets:Bank",
                  metadata := [("importer", .string "gocardless"),
                               ("account_id", .string "ACC1")] }]⟩] }

/-- A feed with one booked transaction and no balances. -/
def c9Feed : Feed :=
  { transactions := fun _ =>
      { transactions := { booked := [c2Record "2024-03-05" "t1"], pending := none } }
    balances := fun _ => { balances := none } }

theorem runImport_append_only_witness :
    (match runImport c9Ledger c9Feed with
     | .ok L' => L'.files.length = c9Ledger.files.length ∧
         ∀ i (h1 : i < c9Ledger.files.length) (h2 : i < L'.files.length),
           ∃ app, (L'.files.get ⟨i, h2⟩).directives =
             (c9Ledger.files.get ⟨i, h1⟩).directives ++ app
     | .error _ => False) := by
  have h : ∃ L', runImport c9Ledger c9Feed = .ok L' := ⟨_, rfl⟩
  obtain ⟨L', hL⟩ := h
  rw [hL]
  exact runImport_append_only c9Ledger c9Feed L' hL

/-! ### Round trip of canonical date rendering through the lenient parser -/

theorem digitChar_isDigit {k : Nat} (h : k < 10) : (Nat.digitChar k).isDigit = true := by
  interval_cases k <;> decide

theorem digitChar_toNat {k : Nat} (h : k < 10) : (Nat.digitChar k).toNat = 48 + k := by
  interval_cases k <;> decide

/-- Two-digit zero-padded rendering. -/
def pad2 (n : Nat) : List Char := [Nat.digitChar (n / 10 % 10), Nat.digitChar (n % 10)]

/-- Four-digit zero-padded rendering. -/
def pad4 (n : Nat) : List Char :=
  [Nat.digitChar (n / 1000 % 10), Nat.digitChar (n / 100 % 10),
   Nat.digitChar (n / 10 % 10), Nat.digitChar (n % 10)]

theorem pad2_all_digits (n : Nat) : ∀ c ∈ pad2 n, c.isDigit = true := by
  intro c hc
  rcases List.mem_cons.mp hc with rfl | hc'
  · exact digitChar_isDigit (Nat.mod_lt _ (by norm_num))
  · rcases List.mem_cons.mp hc' with rfl | hc''
    · exact digitChar_isDigit (Nat.mod_lt _ (by norm_num))
    · exact absurd hc'' (List.not_mem_nil c)

theorem pad4_all_digits (n : Nat) : ∀ c ∈ pad4 n, c.isDigit = true := by
  intro c hc
  rcases List.mem_cons.mp hc with rfl | hc'
  · exact digitChar_isDigit (Nat.mod_lt _ (by norm_num))
  rcases List.mem_cons.mp hc' with rfl | hc''
  · exact digitChar_isDigit (Nat.mod_lt _ (by norm_num))
  rcases List.mem_cons.mp hc'' with rfl | hc3
  · exact digitChar_isDigit (Nat.mod_lt _ (by norm_num))
  rcases List.mem_cons.mp hc3 with rfl | hc4
  · exact digitChar_isDigit (Nat.mod_lt _ (by norm_num))
  · exact absurd hc4 (List.not_mem_nil c)

theorem digitsVal_pad2 {n : Nat} (h : n < 100) : digitsVal (pad2 n) = n := by
  unfold digitsVal pad2
  rw [List.foldl_cons, List.foldl_cons, List.foldl_nil,
      digitChar_toNat (Nat.mod_lt _ (by norm_num)),
      digitChar_toNat (Nat.mod_lt _ (by norm_num))]
  omega

theorem digitsVal_pad4 {n : Nat} (h : n < 10000) : digitsVal (pad4 n) = n := by
  unfold digitsVal pad4
  rw [List.foldl_cons, List.foldl_cons, List.foldl_cons, List.foldl_cons, List.foldl_nil,
      digitChar_toNat (Nat.mod_lt _ (by norm_num)),
      digitChar_toNat (Nat.mod_lt _ (by norm_num)),
      digitChar_toNat (Nat.mod_lt _ (by norm_num)),
      digitChar_toNat (Nat.mod_lt _ (by norm_num))]
  omega

theorem takeWhile_append_all {p : Char → Bool} :
    ∀ {l r : List Char}, (∀ c ∈ l, p c = true) →
      (l ++ r).takeWhile p = l ++ r.takeWhile p := by
  intro l
  induction l with
  | nil => intro r _; rfl
  | cons c l ih =>
    intro r hall
    rw [List.cons_append, List.takeWhile_cons, hall c (List.mem_cons_self _ _)]
    simp only [if_true]
    rw [ih (fun c' hc' => hall c' (List.mem_cons_of_mem _ hc'))]
    rfl

theorem scanNum_exact {w : Nat} {pad tail : List Char} (hw : 0 < w) (hlen : pad.length = w)
    (hdig : ∀ c ∈ pad, c.isDigit = true) :
    scanNum w (pad ++ tail) = some (digitsVal pad, tail) := by
  unfold scanNum
  rw [takeWhile_append_all hdig]
  have htake : (pad ++ tail.takeWhile Char.isDigit).take w = pad := by
    rw [← hlen]
    exact List.take_left _ _
  have hne : pad.isEmpty = false := by
    cases pad with
    | nil => rw [← hlen] at hw; exact absurd hw (by simp)
    | cons c l => rfl
  simp only [htake, hne, Bool.false_eq_true, if_false, List.drop_left]

/-- Canonical `YYYY-MM-DD` rendering of a date (for dates whose year has
four digits). -/
def renderDate (d : Date) : String :=
  String.mk (pad4 d.year.toNat ++ '-' :: (pad2 d.month ++ '-' :: pad2 d.day))

theorem daysInMonth_le (y : Int) (m : Nat) : daysInMonth y m ≤ 31 := by
  unfold daysInMonth
  split
  · split <;> omega
  all_goals omega

theorem stringEta (s : String) : String.mk s.data = s := rfl

/-- Claim C10: the booking-date parser accepts any string whose leading
ten characters render a valid `YYYY-MM-DD` date, returns that date, and
ignores everything after it (the trailing characters come back as the
remainder); in particular a full datetime string parses to its date
part. -/
theorem parseDate_lenient_prefix (d : Date) (rest : String)
    (hv : validDate d = true) (hy1 : 1000 ≤ d.year) (hy2 : d.year ≤ 9999) :
    parseDateAndRemainder (renderDate d ++ rest) = some (d, rest) := by
  have hvb : 1 ≤ d.month ∧ d.month ≤ 12 ∧ 1 ≤ d.day ∧ d.day ≤ daysInMonth d.year d.month := by
    unfold validDate at hv
    exact of_decide_eq_true hv
  have hm100 : d.month < 100 := by omega
  have hd100 : d.day < 100 := by
    have := daysInMonth_le d.year d.month
    omega
  have hy10000 : d.year.toNat < 10000 := by omega
  have hdata : (renderDate d ++ rest).data =
      pad4 d.year.toNat ++ '-' :: (pad2 d.month ++ '-' :: (pad2 d.day ++ rest.data)) := by
    rw [String.data_append]
    unfold renderDate
    simp [List.cons_append, List.append_assoc]
  have hs1 : scanNum 4 (pad4 d.year.toNat ++ '-' :: (pad2 d.month ++ '-' :: (pad2 d.day ++ rest.data))) =
      some (digitsVal (pad4 d.year.toNat), '-' :: (pad2 d.month ++ '-' :: (pad2 d.day ++ rest.data))) :=
    scanNum_exact (by norm_num) rfl (pad4_all_digits _)
  have hs2 : scanNum 2 (pad2 d.month ++ '-' :: (pad2 d.day ++ rest.data)) =
      some (digitsVal (pad2 d.month), '-' :: (pad2 d.day ++ rest.data)) :=
    scanNum_exact (by norm_num) rfl (pad2_all_digits _)
  have hs3 : scanNum 2 (pad2 d.day ++ rest.data) =
      some (digitsVal (pad2 d.day), rest.data) :=
    scanNum_exact (by norm_num) rfl (pad2_all_digits _)
  unfold parseDateAndRemainder
  rw [hdata]
  simp only [hs1, hs2, hs3]
  rw [digitsVal_pad4 hy10000, digitsVal_pad2 hm100, digitsVal_pad2 hd100]
  have hdate : ({ year := (d.year.toNat : Int), month := d.month, day := d.day } : Date) = d := by
    have : (d.year.toNat : Int) = d.year := Int.toNat_of_nonneg (by omega)
    rw [this]
  rw [hdate, hv, if_pos rfl, stringEta]

/-- Claim C10 witness: a full datetime string parses to its date part
with the time part as remainder. -/
theorem parseDate_lenient_prefix_witness :
    validDate { year := 2024, month := 3, day := 5 } = true ∧
    renderDate { year := 2024, month := 3, day := 5 } = "2024-03-05" ∧
    parseDateAndRemainder (renderDate { year := 2024, month := 3, day := 5 } ++ "T12:00:00") =
      some ({ year := 2024, month := 3, day := 5 }, "T12:00:00") :=
  ⟨by decide, by decide,
   parseDate_lenient_prefix { year := 2024, month := 3, day := 5 } "T12:00:00"
     (by decide) (by decide) (by decide)⟩

/-! ### Claim C1: idempotence -/

/-- A booked record that carries no internal transaction id. -/
def c1Record : TransactionSchema :=
  { booking_date := some "2024-03-05", booking_date_time := none, value_date_time := none,
    debtor_name := none, debtor_account := none, creditor_name := none,
    creditor_account := none, currency_exchange := none,
    proprietary_bank_transaction_code := none,
    remittance_information_unstructured := none,
    remittance_information_unstructured_array := none,
    internal_transaction_id := none,
    transaction_amount := { amount := "5", currency := "EUR" } }

/-- One file, one configured account. -/
def c1Ledger : Ledger :=
  { files := [⟨[{ date := { year := 2024, month := 1, day := 1 },
                  content := .openAccount "Assets:Bank",
                  metadata := [("importer", .string "gocardless"),
                               ("account_id", .string "ACC1")] }]⟩] }

/-- A feed whose single booked record has no internal id, and no
balances. -/
def c1Feed : Feed :=
  { transactions := fun _ =>
      { transactions := { booked := [c1Record], pending := none } }
    balances := fun _ => { balances := none } }

/-- Claim C1 counterexample: with a booked record lacking an internal
transaction id, the first run appends one directive (1 becomes 2) and the
second run appends it again (2 becomes 3) — the second pass does not add
zero directives. -/
theorem runImport_second_pass_adds_directives :
    ((runImport c1Ledger c1Feed).bind (fun l1 =>
      (runImport l1 c1Feed).map (fun l2 =>
        (l1.files.map (fun f => f.directives.length),
         l2.files.map (fun f => f.directives.length))))) = .ok ([2], [3]) := by
  rfl

/-! ### Helper lemmas for the amended idempotence theorem -/

theorem hasIdTag_id (s : String) : hasIdTag ("id-" ++ s) = true := by
  unfold hasIdTag
  rw [decide_eq_true_eq, String.data_append]
  have h3 : ("id-".data).length = 3 := rfl
  rw [← h3]
  exact List.take_left _ _

theorem mem_balancesOf {l : List Directive} {a : String} {dt : Date} {amt : Amount} :
    (dt, amt) ∈ balancesOf l a ↔
      ∃ d ∈ l, d.date = dt ∧ ∃ b, d.content = .balance b ∧ b.account = a ∧ b.amount = amt := by
  unfold balancesOf
  rw [List.mem_filterMap]
  constructor
  · rintro ⟨d, hd, hf⟩
    cases hc : d.content with
    | balance b =>
      rw [hc] at hf
      dsimp only at hf
      by_cases hb : b.account = a
      · rw [if_pos hb] at hf
        injection hf with hf
        injection hf with hf1 hf2
        exact ⟨d, hd, hf1, b, hc, hb, hf2⟩
      · rw [if_neg hb] at hf
        exact absurd hf (by simp)
    | transaction t => rw [hc] at hf; exact absurd hf (by simp)
    | openAccount acct => rw [hc] at hf; exact absurd hf (by simp)
    | otherContent => rw [hc] at hf; exact absurd hf (by simp)
  · rintro ⟨d, hd, hdt, b, hc, hb, hamt⟩
    refine ⟨d, hd, ?_⟩
    rw [hc]
    dsimp only
    rw [if_pos hb, hdt, hamt]

theorem balancesOf_all_transactions {l : List Directive} {a : String}
    (h : ∀ d ∈ l, ∃ tx, d.content = .transaction tx) : balancesOf l a = [] := by
  unfold balancesOf
  rw [List.filterMap_eq_nil_iff]
  intro d hd
  obtain ⟨tx, htx⟩ := h d hd
  rw [htx]

theorem pickFM_dominant {xs : List (Date × Amount)} {dt : Date} {amt : Amount}
    (hmem : (dt, amt) ∈ xs)
    (hdom : ∀ p ∈ xs, p = (dt, amt) ∨ Date.lt p.1 dt) :
    pickFM xs = some (dt, amt) := by
  induction xs with
  | nil => exact absurd hmem (List.not_mem_nil _)
  | cons x rest ih =>
    by_cases hx : x = (dt, amt)
    · subst hx
      rw [show pickFM ((dt, amt) :: rest) = rest.foldl pfmStep (some (dt, amt)) from rfl]
      rw [pfm_foldl_char]
      refine Or.inl ⟨rfl, ?_⟩
      intro p hp
      rcases hdom p (List.mem_cons_of_mem _ hp) with rfl | hlt
      · exact Date.le_refl _
      · exact Date.le_of_lt hlt
    · have hxlt : Date.lt x.1 dt := by
        rcases hdom x (List.mem_cons_self _ _) with he | hlt
        · exact absurd he hx
        · exact hlt
      have hmem' : (dt, amt) ∈ rest := by
        rcases List.mem_cons.mp hmem with he | hm
        · exact absurd he.symm hx
        · exact hm
      have hrest := ih hmem' (fun p hp => hdom p (List.mem_cons_of_mem _ hp))
      obtain ⟨pre, post, hsplit, hpre, hpost⟩ := pickFM_char.mp hrest
      refine pickFM_char.mpr ⟨x :: pre, post, ?_, ?_, hpost⟩
      · rw [List.cons_append, hsplit]
      · intro p hp
        rcases List.mem_cons.mp hp with rfl | hp'
        · exact hxlt
        · exact hpre p hp'

/-- Skip branch of the balance step, isolated: an existing assertion with
exactly the adjusted amount suppresses the directive. -/
theorem balApp_skip {lb : String → Option (Date × Amount)} {lt : String → Option Date}
    {bag : String → Option Bag} {feed : Feed} {cfg : String × String}
    {bs : List BalanceSchema} {b : BalanceSchema} {v : Rat} {p : Date × Amount}
    (hbs : (feed.balances cfg.1).balances = some bs) (hb : bs.head? = some b)
    (hv : parseDecimal b.balance_amount.amount = some v)
    (hlb : lb cfg.2 = some p)
    (hp : p.2 = adjustedAmount bag cfg.2 { value := v, currency := b.balance_amount.currency }) :
    balApp lb lt bag feed cfg = .ok [] := by
  rw [balApp_some_eq hbs hb hv]
  obtain ⟨pd, pa⟩ := p
  rw [hlb]
  dsimp only at hp ⊢
  rw [hp]
  simp

/-- Full outcome analysis of one balance step: either the bank returned
no usable entry (and nothing is appended), or the first entry parsed and
the step either skipped on an exactly-matching previous assertion or
emitted one directive carrying the adjusted amount. -/
theorem balApp_cases {lb : String → Option (Date × Amount)} {lt : String → Option Date}
    {bag : String → Option Bag} {feed : Feed} {cfg : String × String} {app : List Directive}
    (h : balApp lb lt bag feed cfg = .ok app) :
    (app = [] ∧
      ((feed.balances cfg.1).balances = none ∨
        ∃ bs, (feed.balances cfg.1).balances = some bs ∧ bs.head? = none)) ∨
    ∃ bs b v, (feed.balances cfg.1).balances = some bs ∧ bs.head? = some b ∧
      parseDecimal b.balance_amount.amount = some v ∧
      ((app = [] ∧ ∃ p, lb cfg.2 = some p ∧
          p.2 = adjustedAmount bag cfg.2 { value := v, currency := b.balance_amount.currency }) ∨
       ∃ dt, app = [{ date := dt, content := .balance { account := cfg.2, amount := adjustedAmount bag cfg.2 { value := v, currency := b.balance_amount.currency } }, metadata := [] }]) := by
  cases hbs : (feed.balances cfg.1).balances with
  | none =>
    rw [balApp_none hbs] at h
    injection h with h
    exact Or.inl ⟨h.symm, Or.inl rfl⟩
  | some bs =>
    cases hh : bs.head? with
    | none =>
      rw [balApp_head_none hbs hh] at h
      injection h with h
      exact Or.inl ⟨h.symm, Or.inr ⟨bs, rfl, hh⟩⟩
    | some b =>
      cases hv : parseDecimal b.balance_amount.amount with
      | none =>
        unfold balApp at h
        rw [hbs] at h
        dsimp only at h
        rw [hh] at h
        dsimp only at h
        rw [hv] at h
        exact absurd h (by simp)
      | some v =>
        rw [balApp_some_eq hbs hh hv] at h
        dsimp only at h
        refine Or.inr ⟨bs, b, v, rfl, hh, hv, ?_⟩
        cases hlb : lb cfg.2 with
        | none =>
          rw [hlb] at h
          dsimp only at h
          rw [if_neg (by simp)] at h
          cases hrd : b.reference_date with
          | some rd =>
            rw [hrd] at h
            dsimp only at h
            cases hpd : parseDateAndRemainder rd with
            | none => rw [hpd] at h; exact absurd h (by simp)
            | some p =>
              obtain ⟨pd, pr⟩ := p
              rw [hpd] at h
              injection h with h
              exact Or.inr ⟨pd, h.symm⟩
          | none =>
            rw [hrd] at h
            dsimp only at h
            cases hlt : lt cfg.2 with
            | none => rw [hlt] at h; exact absurd h (by simp)
            | some d0 =>
              rw [hlt] at h
              injection h with h
              exact Or.inr ⟨nextDay d0, h.symm⟩
        | some p =>
          obtain ⟨pd, pa⟩ := p
          rw [hlb] at h
          dsimp only at h
          by_cases hpa : pa = adjustedAmount bag cfg.2
              { value := v, currency := b.balance_amount.currency }
          · rw [if_pos (by rw [hpa]; simp)] at h
            injection h with h
            exact Or.inl ⟨h.symm, (pd, pa), rfl, hpa⟩
          · rw [if_neg (by simpa using hpa)] at h
            cases hrd : b.reference_date with
            | some rd =>
              rw [hrd] at h
              dsimp only at h
              cases hpd : parseDateAndRemainder rd with
              | none => rw [hpd] at h; exact absurd h (by simp)
              | some q =>
                obtain ⟨qd, qr⟩ := q
                rw [hpd] at h
                injection h with h
                exact Or.inr ⟨qd, h.symm⟩
            | none =>
              rw [hrd] at h
              dsimp only at h
              cases hlt : lt cfg.2 with
              | none => rw [hlt] at h; exact absurd h (by simp)
              | some d0 =>
                rw [hlt] at h
                injection h with h
                exact Or.inr ⟨nextDay d0, h.symm⟩

/-- Everything the idempotence argument needs to know about how one run
turned a file `f0` into `f1`: the pending bag it used, the appended
transaction and balance regions, the fate of every booked record, and the
per-account balance outcome. -/
def PairRel (ids : List String) (lb : String → Option (Date × Amount)) (F : Feed)
    (f0 f1 : LedgerFile) : Prop :=
  ∃ bagm A B,
    bagFold F (fun _ => none) (toImport f0) = .ok bagm ∧
    f1.directives = f0.directives ++ (A ++ B) ∧
    (∀ d ∈ A, ∃ tx, d.content = .transaction tx) ∧
    (∀ d ∈ B, ∃ bc, d.content = .balance bc) ∧
    (∀ a, a ∉ (toImport f0).map (fun c => c.2) → balancesOf B a = []) ∧
    (∀ cfg ∈ toImport f0, ∀ t ∈ (F.transactions cfg.1).transactions.booked,
      ∃ d, gocardless_transaction_to_beancount t cfg.2 = .ok d ∧
        (is_duplicate d ids = true ∨ d ∈ f1.directives)) ∧
    (∀ cfg ∈ toImport f0,
      (balancesOf B cfg.2 = [] ∧
        ((F.balances cfg.1).balances = none ∨
          ∃ bs, (F.balances cfg.1).balances = some bs ∧ bs.head? = none)) ∨
      ∃ bs b v, (F.balances cfg.1).balances = some bs ∧ bs.head? = some b ∧
        parseDecimal b.balance_amount.amount = some v ∧
        ((balancesOf B cfg.2 = [] ∧ ∃ p, lb cfg.2 = some p ∧
           p.2 = adjustedAmount bagm cfg.2 { value := v, currency := b.balance_amount.currency }) ∨
         ∃ dt, balancesOf B cfg.2 =
           [(dt, adjustedAmount bagm cfg.2 { value := v, currency := b.balance_amount.currency })]))

theorem processFile_full {ids : List String} {lb : String → Option (Date × Amount)}
    {lt : String → Option Date} {F : Feed} {f0 f1 : LedgerFile} {lt' : String → Option Date}
    (hnd : ((toImport f0).map (fun c => c.2)).Nodup)
    (h : processFile ids lb lt F f0 = .ok (f1, lt')) :
    PairRel ids lb F f0 f1 := by
  rw [processFile_eq] at h
  cases h1 : txnPhase ids F ⟨f0.directives, lt, fun _ => none⟩ (toImport f0) with
  | error e => rw [h1] at h; exact absurd h (by simp)
  | ok st =>
    rw [h1] at h
    dsimp only at h
    cases h2 : balPhase lb st.last_transaction st.pending_bag F st.directives (toImport f0) with
    | error e => rw [h2] at h; exact absurd h (by simp)
    | ok dirs =>
      rw [h2] at h
      injection h with h
      injection h with hfst hsnd
      have hf1 : f1.directives = dirs := by rw [← hfst]
      have hbag := txnPhase_bag h1
      obtain ⟨A, hA, hAsrc⟩ := txnPhase_shape h1
      obtain ⟨B, hB, hBbal, hBnone, hBpt⟩ := balPhase_structure hnd h2
      refine ⟨st.pending_bag, A, B, hbag, ?_, ?_, hBbal, hBnone, ?_, ?_⟩
      · rw [hf1, hB, hA]
        dsimp only
        rw [List.append_assoc]
      · intro d hd
        obtain ⟨cfg, _, t, _, hok⟩ := hAsrc d hd
        obtain ⟨v, hv⟩ := g2b_ok_shape hok
        exact ⟨_, hv⟩
      · intro cfg hcfg t ht
        obtain ⟨app, happ, hsub⟩ := txnPhase_pointwise h1 cfg hcfg
        obtain ⟨raw, hraw, hout⟩ := txnApp_ok_iff.mp happ
        obtain ⟨d, hdok, hfate⟩ := normalizeBooked_sources hraw t ht
        refine ⟨d, hdok, ?_⟩
        rcases hfate with hdup | hmem
        · exact Or.inl hdup
        · refine Or.inr ?_
          have hdapp : d ∈ app := by
            rw [hout, List.mem_insertionSort, List.mem_reverse]
            exact hmem
          have : d ∈ st.directives := hsub d hdapp
          rw [hf1, hB]
          exact List.mem_append_left B this
      · intro cfg hcfg
        obtain ⟨app, happ, heq⟩ := hBpt cfg hcfg
        rcases balApp_cases happ with ⟨rfl, hcase⟩ | ⟨bs, b, v, hbs, hh, hv, hcase⟩
        · exact Or.inl ⟨by rw [heq]; rfl, hcase⟩
        · refine Or.inr ⟨bs, b, v, hbs, hh, hv, ?_⟩
          rcases hcase with ⟨rfl, p, hlbp, hpa⟩ | ⟨dt, rfl⟩
          · exact Or.inl ⟨by rw [heq]; rfl, p, hlbp, hpa⟩
          · refine Or.inr ⟨dt, ?_⟩
            rw [heq, balancesOf_singleton, if_pos rfl]

theorem processFiles_full {ids : List String} {lb : String → Option (Date × Amount)} {F : Feed} :
    ∀ {fs : List LedgerFile} {lt : String → Option Date} {fs' : List LedgerFile},
      (∀ f ∈ fs, ((toImport f).map (fun c => c.2)).Nodup) →
      processFiles ids lb F lt fs = .ok fs' →
      List.Forall₂ (PairRel ids lb F) fs fs' := by
  intro fs
  induction fs with
  | nil =>
    intro lt fs' _ h
    injection h with h
    subst h
    exact List.Forall₂.nil
  | cons f rest ih =>
    intro lt fs' hnd h
    rw [processFiles_cons_eq] at h
    cases h1 : processFile ids lb lt F f with
    | error e => rw [h1] at h; exact absurd h (by simp)
    | ok r =>
      rw [h1] at h
      dsimp only at h
      cases h2 : processFiles ids lb F r.2 rest with
      | error e => rw [h2] at h; exact absurd h (by simp)
      | ok rest' =>
        rw [h2] at h
        injection h with h
        subst h
        have hr : processFile ids lb lt F f = .ok (r.1, r.2) := by rw [h1]
        exact List.Forall₂.cons
          (processFile_full (hnd f (List.mem_cons_self _ _)) hr)
          (ih (fun f' hf' => hnd f' (List.mem_cons_of_mem _ hf')) h2)

theorem forall₂_mem_left {α β : Type} {R : α → β → Prop} :
    ∀ {l1 : List α} {l2 : List β}, List.Forall₂ R l1 l2 →
      ∀ a ∈ l1, ∃ b ∈ l2, R a b := by
  intro l1
  induction l1 with
  | nil => intro l2 _ a ha; exact absurd ha (List.not_mem_nil a)
  | cons x rest ih =>
    intro l2 h a ha
    cases h with
    | cons hR hrest =>
      rcases List.mem_cons.mp ha with rfl | ha'
      · exact ⟨_, List.mem_cons_self _ _, hR⟩
      · obtain ⟨b, hb, hRb⟩ := ih hrest a ha'
        exact ⟨b, List.mem_cons_of_mem _ hb, hRb⟩

theorem PairRel_dirs {ids : List String} {lb : String → Option (Date × Amount)} {F : Feed}
    {f0 f1 : LedgerFile} (h : PairRel ids lb F f0 f1) :
    ∃ app, f1.directives = f0.directives ++ app := by
  obtain ⟨bagm, A, B, _, hdirs, _⟩ := h
  exact ⟨A ++ B, hdirs⟩

theorem PairRel_toImport {ids : List String} {lb : String → Option (Date × Amount)} {F : Feed}
    {f0 f1 : LedgerFile} (h : PairRel ids lb F f0 f1) :
    toImport f1 = toImport f0 := by
  obtain ⟨bagm, A, B, _, hdirs, hAtx, hBbal, _, _, _⟩ := h
  unfold toImport
  rw [hdirs, List.filterMap_append]
  have hnil : (A ++ B).filterMap openConfig = [] := by
    rw [List.filterMap_eq_nil_iff]
    intro d hd
    rcases List.mem_append.mp hd with hd1 | hd2
    · exact openConfig_not_open (Or.inl (hAtx d hd1))
    · exact openConfig_not_open (Or.inr (hBbal d hd2))
  rw [hnil, List.append_nil]

/-- Every imported id of the input survives into the output ledger. -/
theorem scan_ids_mono {L0 L1 : Ledger}
    (hfa : List.Forall₂ (fun f0 f1 => ∃ app,
      (f1 : LedgerFile).directives = (f0 : LedgerFile).directives ++ app) L0.files L1.files) :
    ∀ x ∈ (scanLedger L0).ids, x ∈ (scanLedger L1).ids := by
  intro x hx
  obtain ⟨f0, hf0, d, hd, t, htr, hl, htag⟩ := scanLedger_ids_mem.mp hx
  obtain ⟨f1, hf1, app, happ⟩ := forall₂_mem_left hfa f0 hf0
  refine scanLedger_ids_mem.mpr ⟨f1, hf1, d, ?_, t, htr, hl, htag⟩
  rw [happ]
  exact List.mem_append_left app hd

/-- A directive present in some output file contributes its tagged links
to the output scan's id set. -/
theorem scan_ids_of_mem {L1 : Ledger} {f1 : LedgerFile} {d : Directive} {t : Transaction}
    {x : String} (hf1 : f1 ∈ L1.files) (hd : d ∈ f1.directives)
    (htr : d.content = .transaction t) (hl : x ∈ t.links) (htag : hasIdTag x = true) :
    x ∈ (scanLedger L1).ids :=
  scanLedger_ids_mem.mpr ⟨f1, hf1, d, hd, t, htr, hl, htag⟩

/-- All accounts configured for import across the whole ledger, in scan
order. -/
def configured (L : Ledger) : List (String × String) :=
  (L.files.map toImport).flatten

theorem forall₂_right_split {α β : Type} {R : α → β → Prop} :
    ∀ {l0 : List α} {l1 : List β}, List.Forall₂ R l0 l1 → ∀ {b : β}, b ∈ l1 →
      ∃ u0 a w0 u1 w1, l0 = u0 ++ a :: w0 ∧ l1 = u1 ++ b :: w1 ∧
        List.Forall₂ R u0 u1 ∧ R a b ∧ List.Forall₂ R w0 w1 := by
  intro l0
  induction l0 with
  | nil =>
    intro l1 h b hb
    cases h
    exact absurd hb (List.not_mem_nil b)
  | cons x rest ih =>
    intro l1 h b hb
    cases h with
    | cons hR hrest =>
      rename_i y ys
      rcases List.mem_cons.mp hb with rfl | hb'
      · exact ⟨[], x, rest, [], ys, rfl, rfl, List.Forall₂.nil, hR, hrest⟩
      · obtain ⟨u0, a, w0, u1, w1, he0, he1, hu, ha, hw⟩ := ih hrest hb'
        exact ⟨x :: u0, a, w0, y :: u1, w1, by rw [he0, List.cons_append],
               by rw [he1, List.cons_append], List.Forall₂.cons hR hu, ha, hw⟩

theorem forall₂_map_eq {α β γ : Type} {g1 : β → γ} {g0 : α → γ} :
    ∀ {l0 : List α} {l1 : List β}, List.Forall₂ (fun x y => g1 y = g0 x) l0 l1 →
      l1.map g1 = l0.map g0 := by
  intro l0
  induction l0 with
  | nil => intro l1 h; cases h; rfl
  | cons x rest ih =>
    intro l1 h
    cases h with
    | cons hR hrest =>
      rw [List.map_cons, List.map_cons, hR, ih hrest]

theorem mem_ledgerBalances {L : Ledger} {a : String} {p : Date × Amount} :
    p ∈ ledgerBalances L a ↔ ∃ f ∈ L.files, p ∈ balancesOf f.directives a := by
  unfold ledgerBalances
  rw [List.mem_flatten]
  constructor
  · rintro ⟨l, hl, hp⟩
    obtain ⟨f, hf, rfl⟩ := List.mem_map.mp hl
    exact ⟨f, hf, hp⟩
  · rintro ⟨f, hf, hp⟩
    exact ⟨balancesOf f.directives a, List.mem_map_of_mem _ hf, hp⟩

theorem PairRel_balancesOf_eq {ids : List String} {lb : String → Option (Date × Amount)}
    {F : Feed} {f0 f1 : LedgerFile} (h : PairRel ids lb F f0 f1) {a : String}
    (ha : a ∉ (toImport f0).map (fun c => c.2)) :
    balancesOf f1.directives a = balancesOf f0.directives a := by
  obtain ⟨bagm, A, B, _, hdirs, hAtx, _, hBnone, _, _⟩ := h
  rw [hdirs, balancesOf_append, balancesOf_append, balancesOf_all_transactions hAtx,
      hBnone a ha, List.append_nil, List.append_nil]

/-- The second pass over one file: with every booked record a duplicate
and every balance step skipping, the file comes back unchanged and
`last_transaction` is untouched. -/
theorem run2_processFile {ids2 : List String} {lb2 : String → Option (Date × Amount)}
    {F : Feed} {lt : String → Option Date} {f1 : LedgerFile} {bagm : String → Option Bag}
    (hbag : bagFold F (fun _ => none) (toImport f1) = .ok bagm)
    (htx : ∀ cfg ∈ toImport f1, txnApp ids2 F cfg = .ok [])
    (hbal : ∀ cfg ∈ toImport f1, balApp lb2 lt bagm F cfg = .ok []) :
    processFile ids2 lb2 lt F f1 = .ok (f1, lt) := by
  rw [processFile_eq]
  have ht := @txnPhase_run2 ids2 F (toImport f1) ⟨f1.directives, lt, fun _ => none⟩ bagm htx hbag
  rw [ht]
  dsimp only
  rw [balPhase_all_skip hbal]

theorem run2_processFiles {ids2 : List String} {lb2 : String → Option (Date × Amount)}
    {F : Feed} :
    ∀ {fs1 : List LedgerFile} {lt : String → Option Date},
      (∀ f1 ∈ fs1, ∃ bagm, bagFold F (fun _ => none) (toImport f1) = .ok bagm ∧
        (∀ cfg ∈ toImport f1, txnApp ids2 F cfg = .ok []) ∧
        (∀ ltx : String → Option Date, ∀ cfg ∈ toImport f1,
          balApp lb2 ltx bagm F cfg = .ok [])) →
      processFiles ids2 lb2 F lt fs1 = .ok fs1 := by
  intro fs1
  induction fs1 with
  | nil => intro lt _; rfl
  | cons f1 rest ih =>
    intro lt hall
    obtain ⟨bagm, hbag, htx, hbal⟩ := hall f1 (List.mem_cons_self _ _)
    rw [processFiles_cons_eq, run2_processFile hbag htx (hbal lt)]
    dsimp only
    rw [ih (fun f hf => hall f (List.mem_cons_of_mem _ hf))]

theorem forall₂_mem_right {α β : Type} {R : α → β → Prop} :
    ∀ {l1 : List α} {l2 : List β}, List.Forall₂ R l1 l2 →
      ∀ b ∈ l2, ∃ a ∈ l1, R a b := by
  intro l1
  induction l1 with
  | nil =>
    intro l2 h b hb
    cases h
    exact absurd hb (List.not_mem_nil b)
  | cons x rest ih =>
    intro l2 h b hb
    cases h with
    | cons hR hrest =>
      rcases List.mem_cons.mp hb with rfl | hb'
      · exact ⟨x, List.mem_cons_self _ _, hR⟩
      · obtain ⟨a, ha, hRa⟩ := ih hrest b hb'
        exact ⟨a, List.mem_cons_of_mem _ ha, hRa⟩

/-- Under the global no-duplicate-accounts hypothesis, an account
configured in one file is configured in no other file. -/
theorem accounts_disjoint {L0 : Ledger} {u0 w0 : List LedgerFile} {f0 : LedgerFile}
    (he0 : L0.files = u0 ++ f0 :: w0)
    (hnd : ((configured L0).map (fun c => c.2)).Nodup)
    {a : String} (ha : a ∈ (toImport f0).map (fun c => c.2)) :
    ∀ g0, (g0 ∈ u0 ∨ g0 ∈ w0) → a ∉ (toImport g0).map (fun c => c.2) := by
  have hsplit : ((configured L0).map (fun c => c.2)) =
      ((u0.map (fun f => (toImport f).map (fun c => c.2))).flatten) ++
      ((toImport f0).map (fun c => c.2) ++
        (w0.map (fun f => (toImport f).map (fun c => c.2))).flatten) := by
    unfold configured
    rw [List.map_flatten, List.map_map, he0, List.map_append, List.map_cons,
        List.flatten_append, List.flatten_cons]
    rfl
  rw [hsplit, List.nodup_append] at hnd
  obtain ⟨_, hrest, hdisj1⟩ := hnd
  rw [List.nodup_append] at hrest
  obtain ⟨_, _, hdisj2⟩ := hrest
  intro g0 hg0 hmem
  rcases hg0 with hgu | hgw
  · have hflat : a ∈ (u0.map (fun f => (toImport f).map (fun c => c.2))).flatten :=
      List.mem_flatten.mpr ⟨_, List.mem_map_of_mem _ hgu, hmem⟩
    exact hdisj1 hflat (List.mem_append_left _ ha)
  · have hflat : a ∈ (w0.map (fun f => (toImport f).map (fun c => c.2))).flatten :=
      List.mem_flatten.mpr ⟨_, List.mem_map_of_mem _ hgw, hmem⟩
    exact hdisj2 ha hflat

/-- Over a segment of file pairs in which an account is never configured,
that account's balance entries are unchanged. -/
theorem segment_balances_eq {ids : List String} {lb : String → Option (Date × Amount)}
    {F : Feed} {a : String} :
    ∀ {u0 u1 : List LedgerFile}, List.Forall₂ (PairRel ids lb F) u0 u1 →
      (∀ g0 ∈ u0, a ∉ (toImport g0).map (fun c => c.2)) →
      u1.map (fun f => balancesOf f.directives a) =
        u0.map (fun f => balancesOf f.directives a) := by
  intro u0
  induction u0 with
  | nil =>
    intro u1 h _
    cases h
    rfl
  | cons g0 rest ih =>
    intro u1 h hna
    cases h with
    | cons hR hrest =>
      rw [List.map_cons, List.map_cons,
          PairRel_balancesOf_eq hR (hna g0 (List.mem_cons_self _ _)),
          ih hrest (fun g hg => hna g (List.mem_cons_of_mem _ hg))]

/-- Claim C1 (amended): the import pass is idempotent provided (a) every
booked record of the feed carries an internal transaction id (records
without one carry no dedup link and are re-imported forever, as the spec
itself notes), (b) no ledger account is configured for import more than
once, and (c) every balance assertion appended by the first run is dated
strictly later than every balance assertion for the same account in the
input ledger (otherwise the appended assertion is not the latest-dated
one, the second scan resolves `last_balance` to an older assertion, and
the balance is emitted again).  Under these hypotheses the second run
against the first run's output adds zero directives: it returns the
ledger unchanged. -/
theorem runImport_idempotent_amended (L0 L1 : Ledger) (F : Feed)
    (h1 : runImport L0 F = .ok L1)
    (hids : ∀ cfg ∈ configured L0, ∀ t ∈ (F.transactions cfg.1).transactions.booked,
      t.internal_transaction_id.isSome = true)
    (hnd : ((configured L0).map (fun c => c.2)).Nodup)
    (hlate : ∀ p ∈ L0.files.zip L1.files,
      ∀ d ∈ (p.2).directives.drop (p.1).directives.length, ∀ bc, d.content = .balance bc →
        ∀ f ∈ L0.files, ∀ d' ∈ f.directives, ∀ bc', d'.content = .balance bc' →
          bc'.account = bc.account → Date.lt d'.date d.date) :
    runImport L1 F = .ok L1 := by
  unfold runImport at h1
  dsimp only at h1
  cases hp : processFiles (scanLedger L0).ids (scanLedger L0).last_balance F
      (scanLedger L0).last_transaction L0.files with
  | error e => rw [hp] at h1; exact absurd h1 (by simp)
  | ok files =>
    rw [hp] at h1
    injection h1 with h1
    have hp' : processFiles (scanLedger L0).ids (scanLedger L0).last_balance F
        (scanLedger L0).last_transaction L0.files = .ok L1.files := by
      rw [hp, ← h1]
    have hndf : ∀ f ∈ L0.files, ((toImport f).map (fun c => c.2)).Nodup := by
      intro f hf
      have hsub : List.Sublist (toImport f) (configured L0) :=
        List.sublist_flatten_of_mem (List.mem_map_of_mem toImport hf)
      exact hnd.sublist (hsub.map _)
    have hfa := processFiles_full hndf hp'
    have hpre : List.Forall₂ (fun f0 f1 => ∃ app,
        (f1 : LedgerFile).directives = (f0 : LedgerFile).directives ++ app) L0.files L1.files :=
      List.Forall₂.imp (fun _ _ hR => PairRel_dirs hR) hfa
    have hrun2 : processFiles (scanLedger L1).ids (scanLedger L1).last_balance F
        (scanLedger L1).last_transaction L1.files = .ok L1.files := by
      apply run2_processFiles
      intro f1 hf1
      obtain ⟨u0, f0, w0, u1, w1, he0, he1, hu, hR, hw⟩ := forall₂_right_split hfa hf1
      have hti := PairRel_toImport hR
      have hf0mem : f0 ∈ L0.files := by
        rw [he0]
        exact List.mem_append_right _ (List.mem_cons_self _ _)
      obtain ⟨bagm, A, B, hbag, hdirs, hAtx, hBbal, hBnone, hfate, hout⟩ := hR
      refine ⟨bagm, ?_, ?_, ?_⟩
      · rw [hti]
        exact hbag
      · intro cfg hcfg1
        rw [hti] at hcfg1
        apply txnApp_all_dup
        intro t ht
        obtain ⟨d, hdok, hfate'⟩ := hfate cfg hcfg1 t ht
        refine ⟨d, hdok, ?_⟩
        have hconf : cfg ∈ configured L0 :=
          List.mem_flatten.mpr ⟨toImport f0, List.mem_map_of_mem toImport hf0mem, hcfg1⟩
        have hsome := hids cfg hconf t ht
        obtain ⟨tid, htid⟩ := Option.isSome_iff_exists.mp hsome
        obtain ⟨bd, date, rem, v, hbd, hpd, hv, hdeq⟩ := g2b_ok_iff.mp hdok
        have hcontent : d.content = .transaction (g2bTransaction t cfg.2 v) := by rw [hdeq]
        have hlinks : (g2bTransaction t cfg.2 v).links = ["id-" ++ tid] := by
          unfold g2bTransaction g2bLinks
          rw [htid]
        have hlink2 : ("id-" ++ tid) ∈ (scanLedger L1).ids := by
          rcases hfate' with hdup | hmem
          · obtain ⟨t', ht', l, hl, hlin⟩ := (is_duplicate_char d _).mp hdup
            rw [hcontent] at ht'
            injection ht' with he
            rw [← he, hlinks] at hl
            rcases List.mem_cons.mp hl with rfl | habs
            · exact scan_ids_mono hpre _ hlin
            · exact absurd habs (List.not_mem_nil l)
          · exact scan_ids_of_mem hf1 hmem hcontent
              (by rw [hlinks]; exact List.mem_cons_self _ _) (hasIdTag_id tid)
        exact (is_duplicate_char d _).mpr
          ⟨g2bTransaction t cfg.2 v, hcontent, "id-" ++ tid,
           by rw [hlinks]; exact List.mem_cons_self _ _, hlink2⟩
      · intro ltx cfg hcfg1
        rw [hti] at hcfg1
        have hacc : cfg.2 ∈ (toImport f0).map (fun c => c.2) := List.mem_map_of_mem _ hcfg1
        have hother := accounts_disjoint he0 hnd hacc
        rcases hout cfg hcfg1 with ⟨hB0, hnob⟩ | ⟨bs, b, v, hbs, hh, hv, hsub⟩
        · rcases hnob with hnone | ⟨bs, hbs, hhead⟩
          · exact balApp_none hnone
          · exact balApp_head_none hbs hhead
        · rcases hsub with ⟨hBempty, p, hlbp, hpadj⟩ | ⟨dt, hBdt⟩
          · have hmid : balancesOf f1.directives cfg.2 = balancesOf f0.directives cfg.2 := by
              rw [hdirs, balancesOf_append, balancesOf_append,
                  balancesOf_all_transactions hAtx, hBempty, List.append_nil, List.append_nil]
            have hledg : ledgerBalances L1 cfg.2 = ledgerBalances L0 cfg.2 := by
              unfold ledgerBalances
              rw [he0, he1, List.map_append, List.map_cons, List.map_append, List.map_cons,
                  segment_balances_eq hu (fun g hg => hother g (Or.inl hg)),
                  segment_balances_eq hw (fun g hg => hother g (Or.inr hg))]
              rw [hmid]
            have heqa : (scanLedger L1).last_balance cfg.2 = some p := by
              rw [scanLedger_last_balance, hledg, ← scanLedger_last_balance]
              exact hlbp
            exact balApp_skip hbs hh hv heqa hpadj
          · have hmemB : (dt, adjustedAmount bagm cfg.2
                { value := v, currency := b.balance_amount.currency }) ∈ balancesOf B cfg.2 := by
              rw [hBdt]
              exact List.mem_cons_self _ _
            obtain ⟨dE, hdEB, hdEdate, bcE, hbcE, hbcEacc, hbcEamt⟩ := mem_balancesOf.mp hmemB
            have hzip : (f0, f1) ∈ L0.files.zip L1.files := by
              rw [he0, he1, List.zip_append hu.length_eq]
              refine List.mem_append_right _ ?_
              rw [List.zip_cons_cons]
              exact List.mem_cons_self _ _
            have hdrop : dE ∈ f1.directives.drop f0.directives.length := by
              rw [hdirs, List.drop_left]
              exact List.mem_append_right A hdEB
            have hstrike : ∀ g0 ∈ L0.files, ∀ q ∈ balancesOf g0.directives cfg.2,
                Date.lt q.1 dt := by
              intro g0 hg0 q hq
              obtain ⟨d', hd', hd'date, b', hb'c, hb'acc, hb'amt⟩ := mem_balancesOf.mp hq
              have hres := hlate (f0, f1) hzip dE hdrop bcE hbcE g0 hg0 d' hd' b' hb'c
                (by rw [hb'acc, hbcEacc])
              rw [hd'date, hdEdate] at hres
              exact hres
            have hmemL : (dt, adjustedAmount bagm cfg.2
                { value := v, currency := b.balance_amount.currency }) ∈
                ledgerBalances L1 cfg.2 := by
              apply mem_ledgerBalances.mpr
              refine ⟨f1, hf1, ?_⟩
              rw [hdirs, balancesOf_append, balancesOf_append, hBdt]
              exact List.mem_append_right _ (List.mem_append_right _ (List.mem_cons_self _ _))
            have hdom : ∀ q ∈ ledgerBalances L1 cfg.2,
                q = (dt, adjustedAmount bagm cfg.2
                  { value := v, currency := b.balance_amount.currency }) ∨
                Date.lt q.1 dt := by
              intro q hq
              obtain ⟨g1, hg1, hqg⟩ := mem_ledgerBalances.mp hq
              rw [he1] at hg1
              rcases List.mem_append.mp hg1 with hgu1 | hgf
              · obtain ⟨g0, hg0u, hRg⟩ := forall₂_mem_right hu g1 hgu1
                rw [PairRel_balancesOf_eq hRg (hother g0 (Or.inl hg0u))] at hqg
                refine Or.inr (hstrike g0 ?_ q hqg)
                rw [he0]
                exact List.mem_append_left _ hg0u
              · rcases List.mem_cons.mp hgf with rfl | hgw1
                · rw [hdirs, balancesOf_append, balancesOf_append,
                      balancesOf_all_transactions hAtx, hBdt, List.nil_append] at hqg
                  rcases List.mem_append.mp hqg with hq0 | hq1
                  · exact Or.inr (hstrike f0 hf0mem q hq0)
                  · rcases List.mem_cons.mp hq1 with rfl | habs
                    · exact Or.inl rfl
                    · exact absurd habs (List.not_mem_nil q)
                · obtain ⟨g0, hg0w, hRg⟩ := forall₂_mem_right hw g1 hgw1
                  rw [PairRel_balancesOf_eq hRg (hother g0 (Or.inr hg0w))] at hqg
                  refine Or.inr (hstrike g0 ?_ q hqg)
                  rw [he0]
                  exact List.mem_append_right _ (List.mem_cons_of_mem _ hg0w)
            have hlb2 : (scanLedger L1).last_balance cfg.2 = some (dt, adjustedAmount bagm cfg.2
                { value := v, currency := b.balance_amount.currency }) := by
              rw [scanLedger_last_balance]
              exact pickFM_dominant hmemL hdom
            exact balApp_skip hbs hh hv hlb2 rfl
    unfold runImport
    dsimp only
    rw [hrun2, exceptBindOk]
    rfl

/-- An empty feed: no booked or pending records, no balance list. -/
def c1wFeed : Feed :=
  { transactions := fun _ => { transactions := { booked := [], pending := none } }
    balances := fun _ => { balances := none } }

theorem runImport_idempotent_amended_witness :
    runImport { files := [] } c1wFeed = .ok { files := [] } :=
  runImport_idempotent_amended { files := [] } { files := [] } c1wFeed rfl
    (fun cfg hcfg => absurd hcfg (by simp [configured]))
    (by simp [configured])
    (fun p hp => absurd hp (by simp))

theorem g2b_total_contract_witness :
    gocardless_transaction_to_beancount c4Bad "Assets:Bank" =
      .error (Err.parseFailure "booking date") :=
  (g2b_total_contract c4Bad "Assets:Bank").2.1 "bad-date" rfl rfl

/-- Balance entry for the netting/skip witness: 85 EUR. -/
def c5B : BalanceSchema :=
  { balance_amount := { amount := "85", currency := "EUR" },
    reference_date := some "2024-05-05" }

/-- Feed whose single balance entry is `c5B`; no transactions. -/
def c5Feed : Feed :=
  { transactions := fun _ => { transactions := { booked := [], pending := none } }
    balances := fun _ => { balances := some [c5B] } }

/-- A scan result whose last known assertion already equals 85 EUR. -/
def c5Lb : String → Option (Date × Amount) :=
  fun _ => some ({ year := 2024, month := 5, day := 4 },
                 { value := mkRat 85 1, currency := "EUR" })

theorem pending_netting_and_skip_witness :
    balApp c5Lb (fun _ => none) (fun _ => none) c5Feed ("ACC", "Assets:Bank") = .ok [] :=
  (pending_netting_and_skip (fun _ => none) c5Lb (fun _ => none) c5Feed ("ACC", "Assets:Bank")
      "Assets:Bank" { value := 1, currency := "EUR" } [c5B] c5B (mkRat 85 1)
      { year := 2024, month := 5, day := 4 } { value := mkRat 85 1, currency := "EUR" }).2
    rfl rfl rfl rfl rfl

/-- Balance entry for the date-selection witness: 90 EUR with a bank
reference date. -/
def c6B : BalanceSchema :=
  { balance_amount := { amount := "90", currency := "EUR" },
    reference_date := some "2024-06-07" }

/-- Feed whose single balance entry is `c6B`; no transactions. -/
def c6Feed : Feed :=
  { transactions := fun _ => { transactions := { booked := [], pending := none } }
    balances := fun _ => { balances := some [c6B] } }

theorem balance_date_selection_witness :
    balApp (fun _ => none) (fun _ => none) (fun _ => none) c6Feed ("ACC", "Assets:Bank") =
      .ok [{ date := { year := 2024, month := 6, day := 7 },
             content := .balance { account := "Assets:Bank", amount := adjustedAmount (fun _ => none) "Assets:Bank" { value := mkRat 90 1, currency := c6B.balance_amount.currency } },
             metadata := [] }] :=
  (balance_date_selection (fun _ => none) (fun _ => none) (fun _ => none) c6Feed
      ("ACC", "Assets:Bank") [c6B] c6B (mkRat 90 1) rfl rfl rfl
      (fun _ hp => Option.noConfusion hp)).1
    "2024-06-07" { year := 2024, month := 6, day := 7 } "" rfl rfl

/-- Feed with no balance list at all, for the first-entry-policy witness. -/
def c8Feed : Feed :=
  { transactions := fun _ => { transactions := { booked := [], pending := none } }
    balances := fun _ => { balances := none } }

theorem balance_first_entry_policy_witness :
    balApp (fun _ => none) (fun _ => none) (fun _ => none) c8Feed ("ACC", "Assets:Bank") =
      .ok [] :=
  (balance_first_entry_policy (fun _ => none) (fun _ => none) (fun _ => none) c8Feed c8Feed
      ("ACC", "Assets:Bank")).1 (Or.inl rfl)
